import Mathlib

/-!
Verification of the client-side caching and mastery-tracking layer of the
vocabflow2 repository (src/services: geminiService / openaiService TTS and
annotation caches, wordMasteryService ledger).

The TypeScript sources are shallowly embedded:
* JS strings are Lean `String`s; `charCodeAt` is modelled by `Char.toNat`
  over `String.data` (equivalent for BMP strings, which is all the code and
  the claims use).
* JS 32-bit arithmetic (`<< 5`, `& hash`) is modelled by `jsToInt32`
  (wrap into the signed 32-bit range).
* `String.prototype.trim` / `toLowerCase` are modelled by `jsTrim` /
  `jsToLower` (explicit whitespace set; ASCII case mapping, which covers the
  code points the program feeds them).
* `btoa` / `atob` are modelled by `btoaList` / `atobList` over lists of
  char codes; `atobList` returns `none` where `atob` throws.
* `localStorage` is a finite partial map `String → Option _`; a value that
  `JSON.parse` cannot parse is the `corrupt` constructor; `setItem` under a
  quota failure is modelled by the `failWrites` flag (every `setItem`
  throws), matching the try/catch structure of the source.
* `Map` (the in-memory layer) is a partial map `String → Option V`.
-/

/-- Signed 32-bit wrap: models JavaScript `x | 0` / `x & x` (ToInt32). -/
def jsToInt32 (x : Int) : Int :=
  (x + 2147483648) % 4294967296 - 2147483648

/-- One step of the rolling hash `hash = ((hash << 5) - hash) + char; hash = hash & hash`
from `getCacheKey` (geminiService.ts / openaiService.ts) and `hashText`
(wordMasteryService.ts). -/
def jsHashStep (h : Int) (c : Nat) : Int :=
  jsToInt32 (jsToInt32 (h * 32) - h + c)

/-- The rolling hash over a string's char codes (the sources apply it to the
already-trimmed string). -/
def jsHash (s : String) : Int :=
  s.data.foldl (fun h c => jsHashStep h c.toNat) 0

/-- JavaScript whitespace (the code points `String.prototype.trim` strips
that occur for BMP text). -/
def jsWhitespace (c : Char) : Bool :=
  (c.toNat == 9) || (c.toNat == 10) || (c.toNat == 11) || (c.toNat == 12) ||
  (c.toNat == 13) || (c.toNat == 32) || (c.toNat == 160) ||
  (c.toNat == 8232) || (c.toNat == 8233) || (c.toNat == 65279)

/-- Model of `String.prototype.trim`: strip whitespace from both ends. -/
def jsTrim (s : String) : String :=
  ⟨((s.data.dropWhile jsWhitespace).reverse.dropWhile jsWhitespace).reverse⟩

/-- ASCII case mapping of `String.prototype.toLowerCase` (per character). -/
def jsCharLower (c : Char) : Char :=
  if 65 ≤ c.toNat ∧ c.toNat ≤ 90 then Char.ofNat (c.toNat + 32) else c

/-- Model of `String.prototype.toLowerCase`. -/
def jsToLower (s : String) : String :=
  ⟨s.data.map jsCharLower⟩

/-- One digit of `Number.prototype.toString(36)`. -/
def base36Char (n : Nat) : Char :=
  if n < 10 then Char.ofNat (48 + n) else Char.ofNat (87 + n)

/-- `Number.prototype.toString(36)` digit loop, fuelled so it reduces by
kernel computation (the fuel `n + 1` always suffices since `n / 36 < n`). -/
def toBase36Core : Nat → Nat → String
  | 0, _ => ""
  | fuel + 1, n =>
    if n < 36 then (base36Char n).toString
    else toBase36Core fuel (n / 36) ++ (base36Char (n % 36)).toString

/-- `Number.prototype.toString(36)` for naturals (the sources call it on
`Math.abs(hash)`). -/
def toBase36 (n : Nat) : String :=
  toBase36Core (n + 1) n

/-- One base64 output character (as a char code), for a 6-bit value. -/
def b64Char (n : Nat) : Nat :=
  if n < 26 then 65 + n
  else if n < 52 then 71 + n
  else if n < 62 then n - 4
  else if n = 62 then 43
  else 47

/-- Reverse lookup of the base64 alphabet; `none` for characters `atob`
rejects. -/
def b64Index (c : Nat) : Option Nat :=
  if 65 ≤ c ∧ c ≤ 90 then some (c - 65)
  else if 97 ≤ c ∧ c ≤ 122 then some (c - 71)
  else if 48 ≤ c ∧ c ≤ 57 then some (c + 4)
  else if c = 43 then some 62
  else if c = 47 then some 63
  else none

/-- Model of `btoa` on a "binary string" given as its list of char codes
(every code < 256); produces the char codes of the base64 text, `61` = `=`. -/
def btoaList : List Nat → List Nat
  | [] => []
  | [a] => [b64Char (a / 4), b64Char (a % 4 * 16), 61, 61]
  | [a, b] => [b64Char (a / 4), b64Char (a % 4 * 16 + b / 16), b64Char (b % 16 * 4), 61]
  | a :: b :: c :: rest =>
    b64Char (a / 4) :: b64Char (a % 4 * 16 + b / 16) ::
    b64Char (b % 16 * 4 + c / 64) :: b64Char (c % 64) :: btoaList rest

/-- Model of `atob` (forgiving base64): `none` where `atob` throws. -/
def atobList : List Nat → Option (List Nat)
  | [] => some []
  | c1 :: c2 :: c3 :: c4 :: rest =>
    match b64Index c1, b64Index c2 with
    | some n1, some n2 =>
      if c3 = 61 then
        if c4 = 61 ∧ rest = [] then some [n1 * 4 + n2 / 16] else none
      else
        match b64Index c3 with
        | some n3 =>
          if c4 = 61 then
            if rest = [] then some [n1 * 4 + n2 / 16, n2 % 16 * 16 + n3 / 4] else none
          else
            match b64Index c4 with
            | some n4 =>
              (atobList rest).map
                (fun bs => (n1 * 4 + n2 / 16) :: (n2 % 16 * 16 + n3 / 4) :: (n3 % 4 * 64 + n4) :: bs)
            | none => none
        | none => none
    | _, _ => none
  | _ => none

/-- `arrayBufferToBase64` (geminiService.ts): bytes → binary string → `btoa`. -/
def arrayBufferToBase64 (bytes : List Nat) : List Nat :=
  btoaList bytes

/-- `base64ToArrayBuffer` (geminiService.ts): `atob` then `charCodeAt` of each
character; `none` models the `atob` exception (caught by the callers). -/
def base64ToArrayBuffer (b64 : List Nat) : Option (List Nat) :=
  atobList b64

/-- Pointwise update of a partial map (models `Map.set`/`Map.delete`,
`localStorage.setItem`/`removeItem`). -/
def upd (k : String) (v : Option α) (f : String → Option α) : String → Option α :=
  fun q => if q = k then v else f q

/-- An entry of the persisted cache index (`{ key, text, timestamp }` for the
TTS caches, `{ key, word, timestamp }` for the annotation caches; the second
field is the logical key in both). -/
structure IndexEntry where
  key : String
  text : String
  timestamp : Nat
deriving DecidableEq

/-- What a `localStorage` slot of a cache can hold once parsed: a serialized
record, the serialized index (an array), or text that `JSON.parse` cannot
handle / that has the wrong shape (`corrupt`). -/
inductive StoredVal (S : Type) where
  | val (s : S)
  | index (idx : List IndexEntry)
  | corrupt
deriving DecidableEq

/-- The state a cache instance operates on: in-memory `Map`, `localStorage`,
and whether `setItem` currently throws (quota exhausted). -/
structure CacheState (V S : Type) where
  memory : String → Option V
  storage : String → Option (StoredVal S)
  failWrites : Bool

/-- Parameters distinguishing the cache instances: capacity, index key,
logical-key normalization, storage-key derivation, and the record
(de)serializer. `ser` also takes the `Date.now()` timestamp stored in the
record (the annotation cache ignores it, matching the source). -/
structure CacheCfg (V S : Type) where
  capacity : Nat
  indexKey : String
  normKey : String → String
  storeKey : String → String
  ser : V → Nat → S
  deser : S → Option V

/-- `getCacheIndex` / `getAnnotationCacheIndex`: read and parse the index.
`corrupt` is caught by the function's own try/catch (`[]`); a record-shaped
value parses as a non-array object, so the caller's `.filter`/iteration
throws — modelled as `.error`. An absent index is `[]`. -/
def readIndexE (cfg : CacheCfg V S) (stor : String → Option (StoredVal S)) :
    Except Unit (List IndexEntry) :=
  match stor cfg.indexKey with
  | none => .ok []
  | some (.index idx) => .ok idx
  | some .corrupt => .ok []
  | some (.val _) => .error ()

/-- The `while (index.length >= MAX) { const oldest = index.shift(); ... }`
eviction loop of `saveToLocalStorage` / `saveAnnotationToCache`: drop oldest
index entries, deleting each one's durable record and memory entry.
(For `n = 0` the JS loop would not terminate; both instances have `n > 0`.) -/
def evictLoop (n : Nat) :
    List IndexEntry → (String → Option (StoredVal S)) → (String → Option V) →
    List IndexEntry × (String → Option (StoredVal S)) × (String → Option V)
  | [], stor, mem => ([], stor, mem)
  | e :: rest, stor, mem =>
    if n ≤ rest.length + 1 then
      evictLoop n rest (upd e.key none stor) (upd e.text none mem)
    else (e :: rest, stor, mem)

/-- `saveToLocalStorage` / `saveAnnotationToCache`: set the memory layer,
then (inside try) re-read the index, drop any entry for the same logical
key, evict while at capacity, append the new entry, and persist record and
index. If `setItem` throws (`failWrites`), the evictions have already
happened but neither record nor index is written; the memory write is
always retained. A non-array index value makes the `.filter` throw before
any durable mutation. -/
def putOp (cfg : CacheCfg V S) (raw : String) (v : V) (ts : Nat)
    (st : CacheState V S) : CacheState V S :=
  let cacheKey := cfg.storeKey raw
  let textKey := cfg.normKey raw
  let mem1 := upd textKey (some v) st.memory
  match readIndexE cfg st.storage with
  | .error _ => { st with memory := mem1 }
  | .ok idx0 =>
    let idx1 := idx0.filter (fun e => e.text ≠ textKey)
    let r := evictLoop cfg.capacity idx1 st.storage mem1
    if st.failWrites then
      { memory := r.2.2, storage := r.2.1, failWrites := st.failWrites }
    else
      { memory := r.2.2
        storage := upd cfg.indexKey (some (.index (r.1 ++ [⟨cacheKey, textKey, ts⟩])))
          (upd cacheKey (some (.val (cfg.ser v ts))) r.2.1)
        failWrites := st.failWrites }

/-- `getFromLocalStorage` / `getAnnotationFromCache`: memory layer first;
else read the durable record, deserialize, and populate the memory layer.
Any read/parse/decode failure degrades to a miss. -/
def getOp (cfg : CacheCfg V S) (raw : String) (st : CacheState V S) :
    Option V × CacheState V S :=
  let cacheKey := cfg.storeKey raw
  let textKey := cfg.normKey raw
  match st.memory textKey with
  | some v => (some v, st)
  | none =>
    match st.storage cacheKey with
    | some (.val s) =>
      match cfg.deser s with
      | some v => (some v, { st with memory := upd textKey (some v) st.memory })
      | none => (none, st)
    | _ => (none, st)

/-- `clearTTSCache` / `clearAnnotationCache`: clear the memory layer, delete
every record listed in the index, delete the index. The `Bool` records
whether the source would throw (a record-shaped index value makes the
`for..of` throw after the memory clear). -/
def clearOp (cfg : CacheCfg V S) (st : CacheState V S) : CacheState V S × Bool :=
  match st.storage cfg.indexKey with
  | some (.val _) => ({ st with memory := (fun _ => none) }, true)
  | some (.index idx) =>
    ({ memory := (fun _ => none)
       storage := upd cfg.indexKey none
         (idx.foldl (fun s e => upd e.key none s) st.storage)
       failWrites := st.failWrites }, false)
  | _ =>
    ({ st with
       memory := (fun _ => none)
       storage := upd cfg.indexKey none st.storage }, false)

/-- The empty session state: empty `Map`, empty `localStorage`, writes
succeeding. -/
def initState : CacheState V S :=
  { memory := (fun _ => none), storage := (fun _ => none), failWrites := false }

/-- Run a list of puts (raw key, value, timestamp) in order. -/
def runPuts (cfg : CacheCfg V S) (ks : List (String × V × Nat))
    (st : CacheState V S) : CacheState V S :=
  ks.foldl (fun s p => putOp cfg p.1 p.2.1 p.2.2 s) st

/-- An operation of a cache instance, for invariant statements. -/
inductive COp (V : Type) where
  | put (raw : String) (v : V) (ts : Nat)
  | get (raw : String)
  | clear

/-- Run a list of cache operations in order. -/
def runOps (cfg : CacheCfg V S) : List (COp V) → CacheState V S → CacheState V S
  | [], st => st
  | .put raw v ts :: ops, st => runOps cfg ops (putOp cfg raw v ts st)
  | .get raw :: ops, st => runOps cfg ops (getOp cfg raw st).2
  | .clear :: ops, st => runOps cfg ops (clearOp cfg st).1

/-- `TTSAudioResult` (geminiService.ts): audio bytes (the `ArrayBuffer` as a
byte list) and mime type. -/
structure TTSAudioResult where
  data : List Nat
  mimeType : String
deriving DecidableEq

/-- `TTSCacheEntry` (geminiService.ts): the persisted form — base64 text (as
char codes), mime type, timestamp. -/
structure TTSCacheEntry where
  base64 : List Nat
  mimeType : String
  timestamp : Nat
deriving DecidableEq

/-- `TTS_CACHE_PREFIX` of geminiService.ts. -/
def TTS_CACHE_PRE : String := "vocabflow_tts_"

/-- `TTS_CACHE_INDEX_KEY` of geminiService.ts. -/
def TTS_CACHE_INDEX_KEY : String := "vocabflow_tts_index"

/-- `MAX_TTS_CACHE_SIZE` of geminiService.ts. -/
def MAX_TTS_CACHE_SIZE : Nat := 20

/-- `getCacheKey` (geminiService.ts): prefix + base36 of the absolute value
of the rolling hash of the trimmed text. -/
def getCacheKey (text : String) : String :=
  TTS_CACHE_PRE ++ toBase36 (jsHash (jsTrim text)).natAbs

/-- The Gemini TTS cache instance of geminiService.ts. -/
def ttsCfg : CacheCfg TTSAudioResult TTSCacheEntry :=
  { capacity := MAX_TTS_CACHE_SIZE
    indexKey := TTS_CACHE_INDEX_KEY
    normKey := jsTrim
    storeKey := getCacheKey
    ser := (fun v ts => ⟨arrayBufferToBase64 v.data, v.mimeType, ts⟩)
    deser := (fun e => (base64ToArrayBuffer e.base64).map (fun d => ⟨d, e.mimeType⟩)) }

/-- The voice-qualified logical key built by `fetchTTSAudio`
(geminiService.ts / openaiService.ts): `` `${text}_${voice}` ``. -/
def ttsCompositeKey (text voice : String) : String :=
  text ++ "_" ++ voice

/-- The `Annotation` record of types.ts (named `Annot` here). -/
structure Annot where
  ipa : String
  definition : String
  definitionEn : Option String := none
  syllables : Option String := none
  roots : Option String := none
  affixes : Option String := none
  etymology : Option String := none
  synonyms : Option (List String) := none
  synonymAnalysis : Option String := none
  antonyms : Option (List String) := none
  associations : Option (List String) := none
  phrases : Option (List String) := none
deriving DecidableEq

/-- `ANNOTATION_CACHE_PREFIX` of geminiService.ts. -/
def ANNOTATION_CACHE_PRE : String := "vocabflow_annotation_"

/-- `ANNOTATION_CACHE_INDEX_KEY` of geminiService.ts. -/
def ANNOTATION_CACHE_INDEX_KEY : String := "vocabflow_annotation_index"

/-- `MAX_ANNOTATION_CACHE_SIZE` of geminiService.ts. -/
def MAX_ANNOTATION_CACHE_SIZE : Nat := 500

/-- `getAnnotationCacheKey` (geminiService.ts): prefix + lowercased trimmed
word. -/
def getAnnotationCacheKey (word : String) : String :=
  ANNOTATION_CACHE_PRE ++ jsTrim (jsToLower word)

/-- The word-annotation cache instance of geminiService.ts (records are the
annotation JSON itself; no timestamp is stored in the record). -/
def annotationCfg : CacheCfg Annot Annot :=
  { capacity := MAX_ANNOTATION_CACHE_SIZE
    indexKey := ANNOTATION_CACHE_INDEX_KEY
    normKey := (fun w => jsTrim (jsToLower w))
    storeKey := getAnnotationCacheKey
    ser := (fun v _ => v)
    deser := some }

/-- `WordMastery` of types.ts (`annotation` field named `annot` here). -/
structure WordMastery where
  word : String
  annot : Annot
  correctCount : Nat
  lastCorrect : Option Nat := none
deriving DecidableEq

/-- `TextWordData` of types.ts. -/
structure TextWordData where
  textHash : String
  words : List WordMastery
  updatedAt : Nat
deriving DecidableEq

/-- A `localStorage` slot of the mastery ledger: parsed data or unparseable
text. -/
inductive LedgerVal where
  | data (d : TextWordData)
  | corrupt
deriving DecidableEq

/-- The state the ledger operates on (`localStorage`, and whether `setItem`
throws). -/
structure LedgerState where
  store : String → Option LedgerVal
  failWrites : Bool

/-- `STORAGE_KEY_PREFIX` of wordMasteryService.ts. -/
def STORAGE_KEY_PRE : String := "vocabflow_words_"

/-- `MASTERY_THRESHOLD` of wordMasteryService.ts. -/
def MASTERY_THRESHOLD : Nat := 3

/-- `hashText` (wordMasteryService.ts): base36 of the absolute value of the
rolling hash of the trimmed text. -/
def hashText (text : String) : String :=
  toBase36 (jsHash (jsTrim text)).natAbs

/-- `getStorageKey` (wordMasteryService.ts). -/
def getStorageKey (textHash : String) : String :=
  STORAGE_KEY_PRE ++ textHash

/-- `loadWordData` (wordMasteryService.ts): read and parse the ledger record;
parse failure degrades to `none`. -/
def loadWordData (text : String) (st : LedgerState) : Option TextWordData :=
  match st.store (getStorageKey (hashText text)) with
  | some (.data d) => some d
  | _ => none

/-- `saveWordData` (wordMasteryService.ts): persist the record wholesale; a
quota failure is caught and leaves the store unchanged. -/
def saveWordData (d : TextWordData) (st : LedgerState) : LedgerState :=
  if st.failWrites then st
  else { st with store := upd (getStorageKey d.textHash) (some (.data d)) st.store }

/-- Update the first element satisfying `p` (models mutating the object
returned by `Array.prototype.find` / located by `findIndex`). -/
def updateFirst (p : α → Bool) (f : α → α) : List α → List α
  | [] => []
  | x :: xs => if p x then f x :: xs else x :: updateFirst p f xs

/-- `addLookedUpWord` (wordMasteryService.ts): lazily create the ledger,
append a new entry with `correctCount = 0` for a new (lowercased) word, or
overwrite the existing entry's annotation; set `updatedAt`; persist.
`ts` models `Date.now()`. -/
def addLookedUpWord (text word : String) (ann : Annot) (ts : Nat)
    (st : LedgerState) : LedgerState :=
  let textHash := hashText text
  let data : TextWordData := match loadWordData text st with
    | none => ⟨textHash, [], ts⟩
    | some d => d
  let wordLower := jsToLower word
  let words :=
    if data.words.any (fun w => w.word == wordLower) then
      updateFirst (fun w => w.word == wordLower) (fun w => { w with annot := ann }) data.words
    else
      data.words ++ [{ word := wordLower, annot := ann, correctCount := 0 }]
  saveWordData { textHash := data.textHash, words := words, updatedAt := ts } st

/-- `getUnmasteredWords` (wordMasteryService.ts). -/
def getUnmasteredWords (text : String) (st : LedgerState) : List WordMastery :=
  match loadWordData text st with
  | none => []
  | some data => data.words.filter (fun w => w.correctCount < MASTERY_THRESHOLD)

/-- `getAllLookedUpWords` (wordMasteryService.ts). -/
def getAllLookedUpWords (text : String) (st : LedgerState) : List WordMastery :=
  match loadWordData text st with
  | none => []
  | some data => data.words

/-- `markWordCorrect` (wordMasteryService.ts): increment the matching entry's
count, stamp `lastCorrect`, persist, return the new count; `0` and no
mutation when the ledger or the entry is absent. -/
def markWordCorrect (text word : String) (ts : Nat) (st : LedgerState) :
    Nat × LedgerState :=
  match loadWordData text st with
  | none => (0, st)
  | some data =>
    let wordLower := jsToLower word
    match data.words.find? (fun w => w.word == wordLower) with
    | none => (0, st)
    | some w =>
      let words := updateFirst (fun x => x.word == wordLower)
        (fun x => { x with correctCount := x.correctCount + 1, lastCorrect := some ts })
        data.words
      (w.correctCount + 1,
        saveWordData { data with words := words, updatedAt := ts } st)

/-- `resetWordProgress` (wordMasteryService.ts). -/
def resetWordProgress (text word : String) (ts : Nat) (st : LedgerState) :
    LedgerState :=
  match loadWordData text st with
  | none => st
  | some data =>
    let wordLower := jsToLower word
    match data.words.find? (fun w => w.word == wordLower) with
    | none => st
    | some _ =>
      let words := updateFirst (fun x => x.word == wordLower)
        (fun x => { x with correctCount := 0 }) data.words
      saveWordData { data with words := words, updatedAt := ts } st

/-- `isWordMastered` (wordMasteryService.ts). -/
def isWordMastered (text word : String) (st : LedgerState) : Bool :=
  match loadWordData text st with
  | none => false
  | some data =>
    let wordLower := jsToLower word
    match data.words.find? (fun w => w.word == wordLower) with
    | none => false
    | some w => MASTERY_THRESHOLD ≤ w.correctCount

/-- `getMasteryThreshold` (wordMasteryService.ts). -/
def getMasteryThreshold : Nat := MASTERY_THRESHOLD

/-- `clearWordData` (wordMasteryService.ts). -/
def clearWordData (text : String) (st : LedgerState) : LedgerState :=
  { st with store := upd (getStorageKey (hashText text)) none st.store }

/-- An abstract description of one live cache slot: logical key `t`, the
storage key `k` computed when it was put, its value and timestamp. -/
structure KeepEntry (V : Type) where
  t : String
  k : String
  v : V
  ts : Nat

/-- The index entry a live slot is recorded under. -/
def entryOf (p : KeepEntry V) : IndexEntry :=
  ⟨p.k, p.t, p.ts⟩

/-- The durable-layer invariant: the persisted index lists exactly the live
slots in insertion order, is within capacity, has pairwise-distinct logical
and storage keys none of which is the index key, every listed slot has its
durable record, and no other slot of the store is occupied. -/
def StorIs (cfg : CacheCfg V S) (keep : List (KeepEntry V)) (st : CacheState V S) : Prop :=
  (keep.map KeepEntry.t).Nodup ∧
  (keep.map KeepEntry.k).Nodup ∧
  keep.length ≤ cfg.capacity ∧
  (∀ p ∈ keep, p.k ≠ cfg.indexKey) ∧
  readIndexE cfg st.storage = .ok (keep.map entryOf) ∧
  (∀ p ∈ keep, st.storage p.k = some (.val (cfg.ser p.v p.ts))) ∧
  (∀ q, q ≠ cfg.indexKey → (∀ p ∈ keep, q ≠ p.k) → st.storage q = none)

/-- The memory-layer invariant: the in-memory `Map` holds exactly the live
slots. -/
def MemIs (keep : List (KeepEntry V)) (st : CacheState V S) : Prop :=
  (∀ p ∈ keep, st.memory p.t = some p.v) ∧
  (∀ q, (∀ p ∈ keep, q ≠ p.t) → st.memory q = none)

/-- The live slots after a `put`: drop any slot with the same logical key,
evict from the front while at capacity, append the new slot. -/
def nextKeep (cfg : CacheCfg V S) (keep : List (KeepEntry V)) (raw : String)
    (v : V) (ts : Nat) : List (KeepEntry V) :=
  let t := cfg.normKey raw
  let l := keep.filter (fun p => p.t ≠ t)
  l.drop (l.length + 1 - cfg.capacity) ++ [⟨t, cfg.storeKey raw, v, ts⟩]

/-- The live slots produced by a list of puts of pairwise-fresh keys. -/
def keepOf (cfg : CacheCfg V S) (ks : List (String × V × Nat)) : List (KeepEntry V) :=
  ks.map (fun p => ⟨cfg.normKey p.1, cfg.storeKey p.1, p.2.1, p.2.2⟩)

/-- The key discipline under which the index invariant holds: every put key
of the operation list has a storage key distinct from the index key, and two
put keys collide on storage keys exactly when they agree on logical keys. -/
def KeyDiscipline (cfg : CacheCfg V S) (ops : List (COp V)) : Prop :=
  ∀ raw v ts, COp.put raw v ts ∈ ops →
    cfg.storeKey raw ≠ cfg.indexKey ∧
    ∀ raw2 v2 ts2, COp.put raw2 v2 ts2 ∈ ops →
      (cfg.normKey raw ≠ cfg.normKey raw2 → cfg.storeKey raw ≠ cfg.storeKey raw2) ∧
      (cfg.normKey raw = cfg.normKey raw2 → cfg.storeKey raw = cfg.storeKey raw2)

/-- Every live slot originates from some put of the operation list. -/
def KeepFrom (cfg : CacheCfg V S) (ops : List (COp V)) (keep : List (KeepEntry V)) : Prop :=
  ∀ p ∈ keep, ∃ raw v ts, COp.put raw v ts ∈ ops ∧
    p.t = cfg.normKey raw ∧ p.k = cfg.storeKey raw

theorem upd_self (k : String) (v : Option α) (f : String → Option α) :
    upd k v f k = v := by
  simp [upd]

theorem upd_other {q k : String} (v : Option α) (f : String → Option α)
    (h : q ≠ k) : upd k v f q = f q := by
  simp [upd, h]

theorem b64Index_b64Char (n : Nat) (h : n < 64) :
    b64Index (b64Char n) = some n := by
  unfold b64Char b64Index
  split_ifs <;> (congr 1; omega)

theorem b64Char_ne_61 (n : Nat) (h : n < 64) : b64Char n ≠ 61 := by
  unfold b64Char
  split_ifs <;> omega

theorem atob_btoa :
    ∀ l : List Nat, (∀ x ∈ l, x < 256) → atobList (btoaList l) = some l := by
  intro l
  induction l using btoaList.induct with
  | case1 =>
    intro _
    rfl
  | case2 a =>
    intro h
    have ha : a < 256 := h a (by simp)
    have h1 : a / 4 < 64 := by omega
    have h2 : a % 4 * 16 < 64 := by omega
    simp only [btoaList, atobList, b64Index_b64Char _ h1, b64Index_b64Char _ h2]
    simp only [if_pos rfl, and_self, if_pos, Option.some.injEq, List.cons.injEq, and_true]
    omega
  | case3 a b =>
    intro h
    have ha : a < 256 := h a (by simp)
    have hb : b < 256 := h b (by simp)
    have h1 : a / 4 < 64 := by omega
    have h2 : a % 4 * 16 + b / 16 < 64 := by omega
    have h3 : b % 16 * 4 < 64 := by omega
    simp only [btoaList, atobList, b64Index_b64Char _ h1, b64Index_b64Char _ h2,
      b64Index_b64Char _ h3]
    rw [if_neg (b64Char_ne_61 _ h3)]
    simp only [if_true, Option.some.injEq, List.cons.injEq, and_true]
    refine ⟨by omega, by omega⟩
  | case4 a b c rest ih =>
    intro h
    have ha : a < 256 := h a (by simp)
    have hb : b < 256 := h b (by simp)
    have hc : c < 256 := h c (by simp)
    have hrest : ∀ x ∈ rest, x < 256 := by
      intro x hx
      exact h x (by simp [hx])
    have h1 : a / 4 < 64 := by omega
    have h2 : a % 4 * 16 + b / 16 < 64 := by omega
    have h3 : b % 16 * 4 + c / 64 < 64 := by omega
    have h4 : c % 64 < 64 := by omega
    simp only [btoaList, atobList, b64Index_b64Char _ h1, b64Index_b64Char _ h2,
      b64Index_b64Char _ h3, b64Index_b64Char _ h4]
    rw [if_neg (b64Char_ne_61 _ h3), if_neg (b64Char_ne_61 _ h4)]
    rw [ih hrest]
    simp only [Option.map_some', Option.some.injEq, List.cons.injEq]
    refine ⟨by omega, by omega, by omega, trivial⟩

theorem evictLoop_mem_keep (n : Nat) (idx : List IndexEntry)
    (s : String → Option (StoredVal S)) (m : String → Option V) (t : String)
    (h : ∀ e ∈ idx, e.text ≠ t) :
    ((evictLoop n idx s m).2.2) t = m t := by
  induction idx generalizing s m with
  | nil => rfl
  | cons e rest ih =>
    simp only [evictLoop]
    split
    · rw [ih _ _ (fun e' he' => h e' (by simp [he']))]
      exact upd_other _ _ (fun hq => (h e (by simp)) hq.symm)
    · rfl

theorem evictLoop_stor_keep (n : Nat) (idx : List IndexEntry)
    (s : String → Option (StoredVal S)) (m : String → Option V) (k : String)
    (h : ∀ e ∈ idx, e.key ≠ k) :
    ((evictLoop n idx s m).2.1) k = s k := by
  induction idx generalizing s m with
  | nil => rfl
  | cons e rest ih =>
    simp only [evictLoop]
    split
    · rw [ih _ _ (fun e' he' => h e' (by simp [he']))]
      exact upd_other _ _ (fun hq => (h e (by simp)) hq.symm)
    · rfl

theorem putOp_memory_self (cfg : CacheCfg V S) (raw : String) (v : V) (ts : Nat)
    (st : CacheState V S) :
    (putOp cfg raw v ts st).memory (cfg.normKey raw) = some v := by
  unfold putOp
  cases hidx : readIndexE cfg st.storage with
  | error e => exact upd_self _ _ _
  | ok idx0 =>
    simp only
    have hfil : ∀ e ∈ idx0.filter (fun e => e.text ≠ cfg.normKey raw),
        e.text ≠ cfg.normKey raw := by
      intro e he
      simpa using (List.mem_filter.mp he).2
    have hm := evictLoop_mem_keep (V := V) cfg.capacity
      (idx0.filter (fun e => e.text ≠ cfg.normKey raw)) st.storage
      (upd (cfg.normKey raw) (some v) st.memory) (cfg.normKey raw) hfil
    split
    · exact hm.trans (upd_self _ _ _)
    · exact hm.trans (upd_self _ _ _)

theorem getOp_putOp_self (cfg : CacheCfg V S) (raw : String) (v : V) (ts : Nat)
    (st : CacheState V S) :
    (getOp cfg raw (putOp cfg raw v ts st)).1 = some v := by
  unfold getOp
  simp only [putOp_memory_self]

/-- Claim C3: cache operations never throw on durable-store failure — a
record that fails to read/parse/decode makes `get` return a miss (`none`),
and when durable writes fail (quota), `put` still retains the memory-layer
entry, so a `get` in the same session returns the value. -/
theorem C3_storage_error_degradation :
    (∀ (V S : Type) (cfg : CacheCfg V S) (st : CacheState V S) (raw : String),
      st.memory (cfg.normKey raw) = none →
      (st.storage (cfg.storeKey raw) = some .corrupt ∨
        ∃ s, st.storage (cfg.storeKey raw) = some (.val s) ∧ cfg.deser s = none) →
      (getOp cfg raw st).1 = none) ∧
    (∀ (V S : Type) (cfg : CacheCfg V S) (st : CacheState V S) (raw : String) (v : V) (ts : Nat),
      st.failWrites = true →
      (getOp cfg raw (putOp cfg raw v ts st)).1 = some v) := by
  constructor
  · intro V S cfg st raw hmem hstor
    unfold getOp
    simp only [hmem]
    rcases hstor with h | ⟨s, hs, hd⟩
    · simp [h]
    · simp [hs, hd]
  · intro V S cfg st raw v ts _
    exact getOp_putOp_self cfg raw v ts st

/-- Witness for C3 at the Gemini TTS cache: a corrupt durable record reads
as a miss, and a put with `localStorage` writes failing still serves the
value from the memory layer. -/
theorem C3_storage_error_degradation_witness :
    (getOp ttsCfg "x"
      ⟨(fun _ => none), upd (getCacheKey "x") (some .corrupt) (fun _ => none), false⟩).1 =
      none ∧
    (getOp ttsCfg "k"
      (putOp ttsCfg "k" ⟨[5], "audio/wav"⟩ 0
        ⟨(fun _ => none), (fun _ => none), true⟩)).1 = some ⟨[5], "audio/wav"⟩ :=
  ⟨C3_storage_error_degradation.1 TTSAudioResult TTSCacheEntry ttsCfg _ "x" rfl
    (Or.inl (by decide)),
   C3_storage_error_degradation.2 TTSAudioResult TTSCacheEntry ttsCfg _ "k" _ 0 rfl⟩

/-- Claim C5: cache round-trip — `put(k, v)` then `get(k)` in the same
session returns `v` (for every cache instance and any starting state), and
the base64 serialization of the audio adapter decodes back to the identical
byte sequence and mime type. -/
theorem C5_cache_roundtrip :
    (∀ (V S : Type) (cfg : CacheCfg V S) (st : CacheState V S) (raw : String) (v : V) (ts : Nat),
      (getOp cfg raw (putOp cfg raw v ts st)).1 = some v) ∧
    (∀ bytes : List Nat, (∀ x ∈ bytes, x < 256) →
      base64ToArrayBuffer (arrayBufferToBase64 bytes) = some bytes) ∧
    (∀ (v : TTSAudioResult) (ts : Nat), (∀ x ∈ v.data, x < 256) →
      ttsCfg.deser (ttsCfg.ser v ts) = some v) := by
  refine ⟨fun V S cfg st raw v ts => getOp_putOp_self cfg raw v ts st, ?_, ?_⟩
  · intro bytes h
    exact atob_btoa bytes h
  · intro v ts h
    have hb : base64ToArrayBuffer (arrayBufferToBase64 v.data) = some v.data :=
      atob_btoa v.data h
    show (base64ToArrayBuffer (arrayBufferToBase64 v.data)).map
      (fun d => ⟨d, v.mimeType⟩) = some v
    rw [hb]
    rfl

/-- Witness for C5 at the Gemini TTS cache with a concrete audio value. -/
theorem C5_cache_roundtrip_witness :
    (getOp ttsCfg "hello"
      (putOp ttsCfg "hello" ⟨[0, 127, 255], "audio/wav"⟩ 7 initState)).1 =
      some ⟨[0, 127, 255], "audio/wav"⟩ ∧
    base64ToArrayBuffer (arrayBufferToBase64 [0, 127, 255]) = some [0, 127, 255] ∧
    ttsCfg.deser (ttsCfg.ser ⟨[0, 127, 255], "audio/wav"⟩ 7) =
      some ⟨[0, 127, 255], "audio/wav"⟩ :=
  ⟨C5_cache_roundtrip.1 TTSAudioResult TTSCacheEntry ttsCfg initState "hello" _ 7,
   C5_cache_roundtrip.2.1 [0, 127, 255] (by decide),
   C5_cache_roundtrip.2.2 ⟨[0, 127, 255], "audio/wav"⟩ 7 (by decide)⟩

/-- Claim C7: mastery progression — from no ledger for a text,
`addLookedUpWord` then three `markWordCorrect` calls make `isWordMastered`
true (threshold 3), a fourth call keeps it mastered (returning 4), and after
the three calls `getUnmasteredWords` no longer contains the word. -/
theorem C7_mastery_progression (text w : String) (ann : Annot)
    (ts1 ts2 ts3 ts4 ts5 : Nat) (st : LedgerState)
    (hnol : st.store (getStorageKey (hashText text)) = none)
    (hfw : st.failWrites = false) :
    isWordMastered text w
      ((markWordCorrect text w ts4
        ((markWordCorrect text w ts3
          ((markWordCorrect text w ts2
            (addLookedUpWord text w ann ts1 st)).2)).2)).2) = true ∧
    (markWordCorrect text w ts5
      ((markWordCorrect text w ts4
        ((markWordCorrect text w ts3
          ((markWordCorrect text w ts2
            (addLookedUpWord text w ann ts1 st)).2)).2)).2)).1 = 4 ∧
    isWordMastered text w
      ((markWordCorrect text w ts5
        ((markWordCorrect text w ts4
          ((markWordCorrect text w ts3
            ((markWordCorrect text w ts2
              (addLookedUpWord text w ann ts1 st)).2)).2)).2)).2) = true ∧
    getUnmasteredWords text
      ((markWordCorrect text w ts4
        ((markWordCorrect text w ts3
          ((markWordCorrect text w ts2
            (addLookedUpWord text w ann ts1 st)).2)).2)).2) = [] := by
  simp [addLookedUpWord, markWordCorrect, loadWordData, saveWordData,
    isWordMastered, getUnmasteredWords, updateFirst, upd, hnol, hfw,
    MASTERY_THRESHOLD, List.find?]

/-- Witness for C7 with a concrete text, word and annotation from the empty
store. -/
theorem C7_mastery_progression_witness :
    isWordMastered "The cat sat." "cat"
      ((markWordCorrect "The cat sat." "cat" 4
        ((markWordCorrect "The cat sat." "cat" 3
          ((markWordCorrect "The cat sat." "cat" 2
            (addLookedUpWord "The cat sat." "cat" { ipa := "kaet", definition := "mao" } 1
              ⟨(fun _ => none), false⟩)).2)).2)).2) = true :=
  (C7_mastery_progression "The cat sat." "cat" { ipa := "kaet", definition := "mao" }
    1 2 3 4 5 ⟨(fun _ => none), false⟩ rfl rfl).1

/-- Claim C8: missing-entry no-op — with no ledger for the text, or no entry
for the (lowercased) word, `markWordCorrect` returns 0 and leaves the state
unchanged, and `isWordMastered` returns false (and neither throws: both are
total functions). -/
theorem C8_missing_entry_noop :
    (∀ (text w : String) (ts : Nat) (st : LedgerState),
      loadWordData text st = none →
      markWordCorrect text w ts st = (0, st) ∧ isWordMastered text w st = false) ∧
    (∀ (text w : String) (ts : Nat) (st : LedgerState) (d : TextWordData),
      loadWordData text st = some d →
      d.words.find? (fun x => x.word == jsToLower w) = none →
      markWordCorrect text w ts st = (0, st) ∧ isWordMastered text w st = false) := by
  constructor
  · intro text w ts st h
    constructor
    · unfold markWordCorrect
      rw [h]
    · unfold isWordMastered
      rw [h]
  · intro text w ts st d hd hf
    constructor
    · unfold markWordCorrect
      rw [hd]
      simp only [hf]
    · unfold isWordMastered
      rw [hd]
      simp only [hf]

/-- Witness for C8: the empty store (no ledger), and a ledger holding only
"dog" queried for "cat". -/
theorem C8_missing_entry_noop_witness :
    (markWordCorrect "t" "cat" 0 ⟨(fun _ => none), false⟩ =
      (0, ⟨(fun _ => none), false⟩) ∧
     isWordMastered "t" "cat" ⟨(fun _ => none), false⟩ = false) ∧
    (markWordCorrect "t" "cat" 0
      ⟨upd (getStorageKey (hashText "t"))
        (some (.data ⟨hashText "t", [⟨"dog", { ipa := "d", definition := "g" }, 1, none⟩], 0⟩))
        (fun _ => none), false⟩ =
      (0, ⟨upd (getStorageKey (hashText "t"))
        (some (.data ⟨hashText "t", [⟨"dog", { ipa := "d", definition := "g" }, 1, none⟩], 0⟩))
        (fun _ => none), false⟩)) :=
  ⟨C8_missing_entry_noop.1 "t" "cat" 0 ⟨(fun _ => none), false⟩ rfl,
   (C8_missing_entry_noop.2 "t" "cat" 0
      ⟨upd (getStorageKey (hashText "t"))
        (some (.data ⟨hashText "t", [⟨"dog", { ipa := "d", definition := "g" }, 1, none⟩], 0⟩))
        (fun _ => none), false⟩
      ⟨hashText "t", [⟨"dog", { ipa := "d", definition := "g" }, 1, none⟩], 0⟩
      (by decide) (by decide)).1⟩

/-- Claim C10: ledger word matching is case-insensitive but not
whitespace-trimmed — after `addLookedUpWord` of `w1` into a fresh ledger,
`markWordCorrect` of `w2` updates the entry (returning 1) exactly when the
lowercasings agree, and otherwise returns 0 leaving the state unchanged;
words differing only by edge whitespace stay distinct for the ledger, while
the annotation cache key both lowercases and trims. -/
theorem C10_ledger_case_insensitive_untrimmed (text w1 w2 : String)
    (ann : Annot) (ts1 ts2 : Nat) (st : LedgerState)
    (hnol : st.store (getStorageKey (hashText text)) = none)
    (hfw : st.failWrites = false) :
    ((markWordCorrect text w2 ts2 (addLookedUpWord text w1 ann ts1 st)).1 =
      if jsToLower w2 = jsToLower w1 then 1 else 0) ∧
    (jsToLower w2 ≠ jsToLower w1 →
      (markWordCorrect text w2 ts2 (addLookedUpWord text w1 ann ts1 st)).2 =
        addLookedUpWord text w1 ann ts1 st) ∧
    jsToLower "cat " ≠ jsToLower "cat" ∧
    getAnnotationCacheKey "cat " = getAnnotationCacheKey "cat" := by
  refine ⟨?_, ?_, by decide, by decide⟩
  · by_cases h : jsToLower w2 = jsToLower w1
    · simp [addLookedUpWord, markWordCorrect, loadWordData, saveWordData,
        updateFirst, upd, hnol, hfw, h, List.find?]
    · have h' : jsToLower w1 ≠ jsToLower w2 := fun e => h e.symm
      have hbe : (jsToLower w1 == jsToLower w2) = false := beq_eq_false_iff_ne.mpr h'
      simp [addLookedUpWord, markWordCorrect, loadWordData, saveWordData,
        updateFirst, upd, hnol, hfw, h, hbe, List.find?]
  · intro h
    have h' : jsToLower w1 ≠ jsToLower w2 := fun e => h e.symm
    have hbe : (jsToLower w1 == jsToLower w2) = false := beq_eq_false_iff_ne.mpr h'
    simp [addLookedUpWord, markWordCorrect, loadWordData, saveWordData,
      updateFirst, upd, hnol, hfw, h, hbe, List.find?]

/-- Witness for C10: "CAT" updates the entry stored for "cat" (returns 1),
while "cat " (trailing space) does not (returns 0). -/
theorem C10_ledger_case_insensitive_untrimmed_witness :
    (markWordCorrect "t" "CAT" 1
      (addLookedUpWord "t" "cat" { ipa := "k", definition := "c" } 0
        ⟨(fun _ => none), false⟩)).1 = 1 ∧
    (markWordCorrect "t" "cat " 1
      (addLookedUpWord "t" "cat" { ipa := "k", definition := "c" } 0
        ⟨(fun _ => none), false⟩)).1 = 0 :=
  ⟨((C10_ledger_case_insensitive_untrimmed "t" "cat" "CAT"
      { ipa := "k", definition := "c" } 0 1 ⟨(fun _ => none), false⟩ rfl rfl).1).trans
    (by decide),
   ((C10_ledger_case_insensitive_untrimmed "t" "cat" "cat "
      { ipa := "k", definition := "c" } 0 1 ⟨(fun _ => none), false⟩ rfl rfl).1).trans
    (by decide)⟩

theorem ne_of_data10 (p q x y : String)
    (hp : 10 < p.data.length) (hq : 10 < q.data.length)
    (hne : p.data[10]? ≠ q.data[10]?) : p ++ x ≠ q ++ y := by
  intro hEq
  have h10 := congrArg (fun s => s.data[10]?) hEq
  simp only [String.data_append] at h10
  rw [List.getElem?_append, List.getElem?_append, if_pos hp, if_pos hq] at h10
  exact hne h10

theorem tts_key_ne_ann_key (x y : String) :
    TTS_CACHE_PRE ++ x ≠ ANNOTATION_CACHE_PRE ++ y :=
  ne_of_data10 _ _ x y (by decide) (by decide) (by decide)

theorem tts_key_ne_words_key (x y : String) :
    TTS_CACHE_PRE ++ x ≠ STORAGE_KEY_PRE ++ y :=
  ne_of_data10 _ _ x y (by decide) (by decide) (by decide)

theorem ann_key_ne_words_key (x y : String) :
    ANNOTATION_CACHE_PRE ++ x ≠ STORAGE_KEY_PRE ++ y :=
  ne_of_data10 _ _ x y (by decide) (by decide) (by decide)

/-- Counterexample to C9 as stated: the annotation cache's record key for the
word "index" IS the annotation cache's own index key, so the keys produced
by the subsystems (index keys included) are not pairwise distinct. -/
theorem C9_counterexample :
    getAnnotationCacheKey "index" = ANNOTATION_CACHE_INDEX_KEY := by
  decide

/-- Claim C9 (amended): key partitioning holds across subsystems — every
key of the TTS audio cache (record keys and the index key) differs, for all
inputs, from every key of the annotation cache (record keys and index key)
and from every mastery-ledger key. Within a single subsystem a record key
can coincide with that cache's own index key (word "index"), which is what
the counterexample exhibits. -/
theorem C9_cross_subsystem_key_partition (a b : String) :
    getCacheKey a ≠ getAnnotationCacheKey b ∧
    getCacheKey a ≠ ANNOTATION_CACHE_INDEX_KEY ∧
    TTS_CACHE_INDEX_KEY ≠ getAnnotationCacheKey b ∧
    TTS_CACHE_INDEX_KEY ≠ ANNOTATION_CACHE_INDEX_KEY ∧
    getCacheKey a ≠ getStorageKey (hashText b) ∧
    TTS_CACHE_INDEX_KEY ≠ getStorageKey (hashText b) ∧
    getAnnotationCacheKey a ≠ getStorageKey (hashText b) ∧
    ANNOTATION_CACHE_INDEX_KEY ≠ getStorageKey (hashText b) := by
  have hti : TTS_CACHE_INDEX_KEY = TTS_CACHE_PRE ++ "index" := by decide
  have hai : ANNOTATION_CACHE_INDEX_KEY = ANNOTATION_CACHE_PRE ++ "index" := by decide
  refine ⟨tts_key_ne_ann_key _ _, ?_, ?_, ?_, tts_key_ne_words_key _ _, ?_,
    ann_key_ne_words_key _ _, ?_⟩
  · rw [hai]
    exact tts_key_ne_ann_key _ _
  · rw [hti]
    exact tts_key_ne_ann_key _ _
  · rw [hti, hai]
    exact tts_key_ne_ann_key _ _
  · rw [hti]
    exact tts_key_ne_words_key _ _
  · rw [hai]
    exact ann_key_ne_words_key _ _

/-- Counterexample to C6 as stated: the distinct voice identifiers "A" and
"A " for the same text collapse to one cache entry (the composite key is
trimmed), so retrieving the audio for voice "A" returns the audio stored
for voice "A ". -/
theorem C6_counterexample :
    "A" ≠ "A " ∧
    (getOp ttsCfg (ttsCompositeKey "hi" "A")
      (putOp ttsCfg (ttsCompositeKey "hi" "A ") ⟨[2], "b"⟩ 1
        (putOp ttsCfg (ttsCompositeKey "hi" "A") ⟨[1], "a"⟩ 0 initState))).1 =
      some ⟨[2], "b"⟩ :=
  ⟨by decide, by decide⟩

theorem evictLoop_small (n : Nat) (idx : List IndexEntry)
    (s : String → Option (StoredVal S)) (m : String → Option V)
    (h : idx.length < n) : evictLoop n idx s m = (idx, s, m) := by
  cases idx with
  | nil => rfl
  | cons e rest =>
    simp only [evictLoop]
    rw [if_neg]
    simp only [List.length_cons] at h
    omega

/-- Memory-layer lookups for a key other than the one being put are
preserved when the put causes no eviction (filtered index below capacity). -/
theorem putOp_memory_other (cfg : CacheCfg V S) (raw : String) (v : V) (ts : Nat)
    (st : CacheState V S) (q : String) (idx : List IndexEntry)
    (hidx : readIndexE cfg st.storage = .ok idx)
    (hlen : (idx.filter (fun e => e.text ≠ cfg.normKey raw)).length < cfg.capacity)
    (hq : q ≠ cfg.normKey raw) :
    (putOp cfg raw v ts st).memory q = st.memory q := by
  unfold putOp
  rw [hidx]
  simp only
  rw [evictLoop_small _ _ _ _ hlen]
  split
  · exact upd_other _ _ hq
  · exact upd_other _ _ hq

/-- Claim C6 (amended): voice sensitivity — storing TTS audio for the same
sentence under two voice identifiers whose composite keys stay distinct
after trimming yields two independently retrievable entries, and in-session
retrieval by each (text, voice) pair returns that pair's own audio. As
stated the claim fails for voice identifiers that differ only in edge
whitespace (see the counterexample). -/
theorem C6_voice_sensitivity (t A B : String) (vA vB : TTSAudioResult)
    (ts1 ts2 : Nat)
    (hAB : ttsCfg.normKey (ttsCompositeKey t A) ≠ ttsCfg.normKey (ttsCompositeKey t B)) :
    (getOp ttsCfg (ttsCompositeKey t A)
      (putOp ttsCfg (ttsCompositeKey t B) vB ts2
        (putOp ttsCfg (ttsCompositeKey t A) vA ts1 initState))).1 = some vA ∧
    (getOp ttsCfg (ttsCompositeKey t B)
      (putOp ttsCfg (ttsCompositeKey t B) vB ts2
        (putOp ttsCfg (ttsCompositeKey t A) vA ts1 initState))).1 = some vB := by
  refine ⟨?_, getOp_putOp_self _ _ _ _ _⟩
  have hidx : readIndexE ttsCfg
      (putOp ttsCfg (ttsCompositeKey t A) vA ts1 initState).storage =
      .ok [⟨ttsCfg.storeKey (ttsCompositeKey t A),
        ttsCfg.normKey (ttsCompositeKey t A), ts1⟩] := rfl
  have hmem : (putOp ttsCfg (ttsCompositeKey t B) vB ts2
      (putOp ttsCfg (ttsCompositeKey t A) vA ts1 initState)).memory
      (ttsCfg.normKey (ttsCompositeKey t A)) = some vA := by
    rw [putOp_memory_other ttsCfg (ttsCompositeKey t B) vB ts2 _ _ _ hidx
      (lt_of_le_of_lt (List.length_filter_le _ _)
        (by norm_num [ttsCfg, MAX_TTS_CACHE_SIZE])) hAB]
    exact putOp_memory_self ttsCfg (ttsCompositeKey t A) vA ts1 initState
  unfold getOp
  simp only [hmem]

/-- Witness for C6 with the voices "Puck" and "Kore" of the source. -/
theorem C6_voice_sensitivity_witness :
    (getOp ttsCfg (ttsCompositeKey "hello" "Puck")
      (putOp ttsCfg (ttsCompositeKey "hello" "Kore") ⟨[2], "audio/wav"⟩ 1
        (putOp ttsCfg (ttsCompositeKey "hello" "Puck") ⟨[1], "audio/wav"⟩ 0
          initState))).1 = some ⟨[1], "audio/wav"⟩ :=
  (C6_voice_sensitivity "hello" "Puck" "Kore" ⟨[1], "audio/wav"⟩
    ⟨[2], "audio/wav"⟩ 0 1 (by decide)).1

theorem evictLoop_eq (n : Nat) (idx : List IndexEntry)
    (s : String → Option (StoredVal S)) (m : String → Option V) :
    evictLoop n idx s m =
      (idx.drop (idx.length + 1 - n),
       (idx.take (idx.length + 1 - n)).foldl (fun s2 e => upd e.key none s2) s,
       (idx.take (idx.length + 1 - n)).foldl (fun m2 e => upd e.text none m2) m) := by
  induction idx generalizing s m with
  | nil => simp [evictLoop]
  | cons e rest ih =>
    simp only [evictLoop, List.length_cons]
    by_cases h : n ≤ rest.length + 1
    · rw [if_pos h, ih]
      have hd : rest.length + 1 + 1 - n = (rest.length + 1 - n) + 1 := by omega
      rw [hd]
      simp
    · rw [if_neg h]
      have hd : rest.length + 1 + 1 - n = 0 := by omega
      rw [hd]
      simp

theorem foldl_upd_keep (g : IndexEntry → String) (l : List IndexEntry)
    (f : String → Option β) (q : String) (h : ∀ e ∈ l, g e ≠ q) :
    (l.foldl (fun acc e => upd (g e) none acc) f) q = f q := by
  induction l generalizing f with
  | nil => rfl
  | cons e rest ih =>
    simp only [List.foldl_cons]
    rw [ih _ (fun e' he' => h e' (by simp [he']))]
    exact upd_other _ _ (fun hq => (h e (by simp)) hq.symm)

theorem foldl_upd_none (g : IndexEntry → String) (l : List IndexEntry)
    (f : String → Option β) (q : String) (h : f q = none) :
    (l.foldl (fun acc e => upd (g e) none acc) f) q = none := by
  induction l generalizing f with
  | nil => exact h
  | cons e rest ih =>
    simp only [List.foldl_cons]
    apply ih
    by_cases hq : q = g e
    · rw [hq]
      exact upd_self _ _ _
    · rw [upd_other _ _ hq]
      exact h

theorem foldl_upd_hit (g : IndexEntry → String) (l : List IndexEntry)
    (f : String → Option β) (q : String) (h : ∃ e ∈ l, g e = q) :
    (l.foldl (fun acc e => upd (g e) none acc) f) q = none := by
  induction l generalizing f with
  | nil => simp at h
  | cons e rest ih =>
    simp only [List.foldl_cons]
    by_cases hq : g e = q
    · apply foldl_upd_none
      rw [← hq]
      exact upd_self _ _ _
    · apply ih
      rcases h with ⟨e', he', hge⟩
      rcases List.mem_cons.mp he' with h1 | h1
      · exact absurd (h1 ▸ hge) hq
      · exact ⟨e', h1, hge⟩

theorem putOp_eq (cfg : CacheCfg V S) (raw : String) (v : V) (ts : Nat)
    (st : CacheState V S) (idx : List IndexEntry)
    (hidx : readIndexE cfg st.storage = .ok idx) (hfw : st.failWrites = false) :
    putOp cfg raw v ts st =
      { memory :=
          ((idx.filter (fun e => e.text ≠ cfg.normKey raw)).take
              ((idx.filter (fun e => e.text ≠ cfg.normKey raw)).length + 1 - cfg.capacity)).foldl
            (fun m2 e => upd e.text none m2)
            (upd (cfg.normKey raw) (some v) st.memory)
        storage :=
          upd cfg.indexKey
            (some (.index
              ((idx.filter (fun e => e.text ≠ cfg.normKey raw)).drop
                ((idx.filter (fun e => e.text ≠ cfg.normKey raw)).length + 1 - cfg.capacity) ++
               [⟨cfg.storeKey raw, cfg.normKey raw, ts⟩])))
            (upd (cfg.storeKey raw) (some (.val (cfg.ser v ts)))
              (((idx.filter (fun e => e.text ≠ cfg.normKey raw)).take
                  ((idx.filter (fun e => e.text ≠ cfg.normKey raw)).length + 1 - cfg.capacity)).foldl
                (fun s2 e => upd e.key none s2) st.storage))
        failWrites := st.failWrites } := by
  unfold putOp
  rw [hidx]
  simp only [evictLoop_eq, hfw, Bool.false_eq_true, if_false]

theorem mem_filter_t {keep : List (KeepEntry V)} {p : KeepEntry V} {t : String} :
    p ∈ keep.filter (fun q => q.t ≠ t) ↔ p ∈ keep ∧ p.t ≠ t := by
  simp [List.mem_filter]

theorem take_drop_map_ne (g : KeepEntry V → String) (l : List (KeepEntry V))
    (d : Nat) (h : (l.map g).Nodup) (a b : KeepEntry V)
    (ha : a ∈ l.take d) (hb : b ∈ l.drop d) : g a ≠ g b := by
  have hdisj : ((l.take d).map g).Disjoint ((l.drop d).map g) :=
    List.disjoint_of_nodup_append
      (by rw [← List.map_append, List.take_append_drop]; exact h)
  intro he
  exact hdisj (List.mem_map_of_mem g ha) (he ▸ List.mem_map_of_mem g hb)

theorem putOp_storIs (cfg : CacheCfg V S) (raw : String) (v : V) (ts : Nat)
    (st : CacheState V S) (keep : List (KeepEntry V))
    (hcap : 0 < cfg.capacity)
    (hfw : st.failWrites = false)
    (hS : StorIs cfg keep st)
    (hik : cfg.storeKey raw ≠ cfg.indexKey)
    (hinj : ∀ p ∈ keep, p.t ≠ cfg.normKey raw → p.k ≠ cfg.storeKey raw)
    (hre : ∀ p ∈ keep, p.t = cfg.normKey raw → p.k = cfg.storeKey raw) :
    StorIs cfg (nextKeep cfg keep raw v ts) (putOp cfg raw v ts st) := by
  obtain ⟨hTN, hKN, hLen, hKI, hIdx, hRec, hNone⟩ := hS
  have hfm : (keep.map entryOf).filter (fun e => e.text ≠ cfg.normKey raw) =
      (keep.filter (fun p => p.t ≠ cfg.normKey raw)).map entryOf := by
    rw [List.filter_map]
    rfl
  have heq := putOp_eq cfg raw v ts st (keep.map entryOf) hIdx hfw
  rw [hfm, List.length_map] at heq
  simp only [← List.map_take, ← List.map_drop] at heq
  have hFsub : (keep.filter (fun p => p.t ≠ cfg.normKey raw)).Sublist keep :=
    List.filter_sublist keep
  have hFt : ∀ p ∈ keep.filter (fun p => p.t ≠ cfg.normKey raw),
      p.t ≠ cfg.normKey raw := fun p hp => (mem_filter_t.mp hp).2
  have hFmem : ∀ p ∈ keep.filter (fun p => p.t ≠ cfg.normKey raw), p ∈ keep :=
    fun p hp => (mem_filter_t.mp hp).1
  have hFTN : ((keep.filter (fun p => p.t ≠ cfg.normKey raw)).map KeepEntry.t).Nodup :=
    hTN.sublist (hFsub.map _)
  have hFKN : ((keep.filter (fun p => p.t ≠ cfg.normKey raw)).map KeepEntry.k).Nodup :=
    hKN.sublist (hFsub.map _)
  refine ⟨?_, ?_, ?_, ?_, ?_, ?_, ?_⟩
  · -- logical keys of the new live list are pairwise distinct
    simp only [nextKeep, List.map_append]
    rw [List.nodup_append]
    refine ⟨hFTN.sublist ((List.drop_sublist _ _).map _), List.nodup_singleton _, ?_⟩
    intro a ha hb
    simp only [List.map_cons, List.map_nil, List.mem_singleton] at hb
    rcases List.mem_map.mp ha with ⟨p, hp, hpa⟩
    exact hFt p (List.drop_subset _ _ hp) (hpa.symm ▸ hb ▸ rfl)
  · -- storage keys pairwise distinct
    simp only [nextKeep, List.map_append]
    rw [List.nodup_append]
    refine ⟨hFKN.sublist ((List.drop_sublist _ _).map _), List.nodup_singleton _, ?_⟩
    intro a ha hb
    simp only [List.map_cons, List.map_nil, List.mem_singleton] at hb
    rcases List.mem_map.mp ha with ⟨p, hp, hpa⟩
    have hpF := List.drop_subset _ _ hp
    exact hinj p (hFmem p hpF) (hFt p hpF) (hpa.symm ▸ hb ▸ rfl)
  · -- length within capacity
    have hFlen : (keep.filter (fun p => p.t ≠ cfg.normKey raw)).length ≤ keep.length :=
      List.length_filter_le _ _
    simp only [nextKeep, List.length_append, List.length_drop, List.length_cons,
      List.length_nil]
    omega
  · -- no storage key equals the index key
    intro p hp
    rcases List.mem_append.mp hp with hp | hp
    · exact hKI p (hFmem p (List.drop_subset _ _ hp))
    · simp only [List.mem_singleton] at hp
      rw [hp]
      exact hik
  · -- the persisted index lists exactly the live slots
    rw [heq]
    show readIndexE cfg (upd cfg.indexKey _ _) = _
    unfold readIndexE
    rw [upd_self]
    simp [nextKeep, entryOf]
  · -- every live slot has its durable record
    intro p hp
    rw [heq]
    show upd cfg.indexKey _ (upd (cfg.storeKey raw) _ _) p.k = _
    rcases List.mem_append.mp hp with hp | hp
    · have hpF := List.drop_subset _ _ hp
      have hpk1 : p.k ≠ cfg.indexKey := hKI p (hFmem p hpF)
      have hpk2 : p.k ≠ cfg.storeKey raw := hinj p (hFmem p hpF) (hFt p hpF)
      rw [upd_other _ _ hpk1, upd_other _ _ hpk2]
      rw [foldl_upd_keep]
      · exact hRec p (hFmem p hpF)
      · intro e he
        rcases List.mem_map.mp he with ⟨q, hq, hqe⟩
        rw [← hqe]
        show q.k ≠ p.k
        exact take_drop_map_ne KeepEntry.k _ _ hFKN q p hq hp
    · simp only [List.mem_singleton] at hp
      rw [hp]
      show upd cfg.indexKey _ (upd (cfg.storeKey raw) _ _) (cfg.storeKey raw) = _
      rw [upd_other _ _ hik, upd_self]
  · -- all other storage slots are empty
    intro q hqI hqK
    rw [heq]
    show upd cfg.indexKey _ (upd (cfg.storeKey raw) _ _) q = none
    have hqsk : q ≠ cfg.storeKey raw := by
      have := hqK ⟨cfg.normKey raw, cfg.storeKey raw, v, ts⟩
        (List.mem_append.mpr (Or.inr (List.mem_singleton.mpr rfl)))
      exact this
    rw [upd_other _ _ hqI, upd_other _ _ hqsk]
    by_cases hhit : ∃ e ∈ ((keep.filter
        (fun p => p.t ≠ cfg.normKey raw)).take
        ((keep.filter (fun p => p.t ≠ cfg.normKey raw)).length + 1 -
          cfg.capacity)).map entryOf, e.key = q
    · exact foldl_upd_hit _ _ _ _ hhit
    · rw [foldl_upd_keep]
      · apply hNone q hqI
        intro p hp
        by_cases hpt : p.t = cfg.normKey raw
        · rw [hre p hp hpt]
          exact hqsk
        · have hpF : p ∈ keep.filter (fun p => p.t ≠ cfg.normKey raw) :=
            mem_filter_t.mpr ⟨hp, hpt⟩
          rw [← List.take_append_drop ((keep.filter
            (fun p => p.t ≠ cfg.normKey raw)).length + 1 - cfg.capacity)
            (keep.filter (fun p => p.t ≠ cfg.normKey raw))] at hpF
          rcases List.mem_append.mp hpF with hpF | hpF
          · intro he
            exact hhit ⟨entryOf p, List.mem_map_of_mem _ hpF, he.symm⟩
          · exact hqK p (List.mem_append.mpr (Or.inl hpF))
      · intro e he hq2
        exact hhit ⟨e, he, hq2⟩

theorem putOp_memIs (cfg : CacheCfg V S) (raw : String) (v : V) (ts : Nat)
    (st : CacheState V S) (keep : List (KeepEntry V))
    (hfw : st.failWrites = false)
    (hS : StorIs cfg keep st)
    (hM : MemIs keep st) :
    MemIs (nextKeep cfg keep raw v ts) (putOp cfg raw v ts st) := by
  obtain ⟨hTN, hKN, hLen, hKI, hIdx, hRec, hNone⟩ := hS
  obtain ⟨hMem, hMemN⟩ := hM
  have hfm : (keep.map entryOf).filter (fun e => e.text ≠ cfg.normKey raw) =
      (keep.filter (fun p => p.t ≠ cfg.normKey raw)).map entryOf := by
    rw [List.filter_map]
    rfl
  have heq := putOp_eq cfg raw v ts st (keep.map entryOf) hIdx hfw
  rw [hfm, List.length_map] at heq
  simp only [← List.map_take, ← List.map_drop] at heq
  have hFsub : (keep.filter (fun p => p.t ≠ cfg.normKey raw)).Sublist keep :=
    List.filter_sublist keep
  have hFt : ∀ p ∈ keep.filter (fun p => p.t ≠ cfg.normKey raw),
      p.t ≠ cfg.normKey raw := fun p hp => (mem_filter_t.mp hp).2
  have hFmem : ∀ p ∈ keep.filter (fun p => p.t ≠ cfg.normKey raw), p ∈ keep :=
    fun p hp => (mem_filter_t.mp hp).1
  have hFTN : ((keep.filter (fun p => p.t ≠ cfg.normKey raw)).map KeepEntry.t).Nodup :=
    hTN.sublist (hFsub.map _)
  constructor
  · -- every live slot is in the memory layer
    intro p hp
    rw [heq]
    show List.foldl (fun (m2 : String → Option V) (e : IndexEntry) => upd e.text none m2)
      (upd (cfg.normKey raw) (some v) st.memory) _ p.t = some p.v
    rcases List.mem_append.mp hp with hp | hp
    · have hpF := List.drop_subset _ _ hp
      rw [foldl_upd_keep]
      · rw [upd_other _ _ (hFt p hpF)]
        exact hMem p (hFmem p hpF)
      · intro e he
        rcases List.mem_map.mp he with ⟨q, hq, hqe⟩
        rw [← hqe]
        show q.t ≠ p.t
        exact take_drop_map_ne KeepEntry.t _ _ hFTN q p hq hp
    · simp only [List.mem_singleton] at hp
      rw [hp]
      show List.foldl (fun (m2 : String → Option V) (e : IndexEntry) => upd e.text none m2)
        (upd (cfg.normKey raw) (some v) st.memory) _ (cfg.normKey raw) = some v
      rw [foldl_upd_keep]
      · exact upd_self _ _ _
      · intro e he
        rcases List.mem_map.mp he with ⟨q, hq, hqe⟩
        rw [← hqe]
        show q.t ≠ cfg.normKey raw
        exact hFt q (List.take_subset _ _ hq)
  · -- all other memory slots are empty
    intro q hq
    rw [heq]
    show List.foldl (fun (m2 : String → Option V) (e : IndexEntry) => upd e.text none m2)
      (upd (cfg.normKey raw) (some v) st.memory) _ q = none
    have hqt : q ≠ cfg.normKey raw := by
      exact hq ⟨cfg.normKey raw, cfg.storeKey raw, v, ts⟩
        (List.mem_append.mpr (Or.inr (List.mem_singleton.mpr rfl)))
    by_cases hhit : ∃ e ∈ ((keep.filter
        (fun p => p.t ≠ cfg.normKey raw)).take
        ((keep.filter (fun p => p.t ≠ cfg.normKey raw)).length + 1 -
          cfg.capacity)).map entryOf, e.text = q
    · rcases hhit with ⟨e, he, het⟩
      exact foldl_upd_hit IndexEntry.text _ _ _ ⟨e, he, het⟩
    · rw [foldl_upd_keep]
      · rw [upd_other _ _ hqt]
        apply hMemN q
        intro p hp
        by_cases hpt : p.t = cfg.normKey raw
        · rw [hpt]
          exact hqt
        · have hpF : p ∈ keep.filter (fun p => p.t ≠ cfg.normKey raw) :=
            mem_filter_t.mpr ⟨hp, hpt⟩
          rw [← List.take_append_drop ((keep.filter
            (fun p => p.t ≠ cfg.normKey raw)).length + 1 - cfg.capacity)
            (keep.filter (fun p => p.t ≠ cfg.normKey raw))] at hpF
          rcases List.mem_append.mp hpF with hpF | hpF
          · intro he
            exact hhit ⟨entryOf p, List.mem_map_of_mem _ hpF, he.symm⟩
          · exact hq p (List.mem_append.mpr (Or.inl hpF))
      · intro e he hq2
        exact hhit ⟨e, he, hq2⟩

theorem putOp_failWrites (cfg : CacheCfg V S) (raw : String) (v : V) (ts : Nat)
    (st : CacheState V S) : (putOp cfg raw v ts st).failWrites = st.failWrites := by
  unfold putOp
  rcases readIndexE cfg st.storage with _ | idx0
  · rfl
  · simp only
    split <;> rfl

theorem getOp_snd (cfg : CacheCfg V S) (raw : String) (st : CacheState V S) :
    (getOp cfg raw st).2.storage = st.storage ∧
    (getOp cfg raw st).2.failWrites = st.failWrites := by
  unfold getOp
  dsimp only
  constructor
  · split
    · rfl
    · split
      · split
        · rfl
        · rfl
      · rfl
  · split
    · rfl
    · split
      · split
        · rfl
        · rfl
      · rfl

theorem storIs_congr (cfg : CacheCfg V S) (keep : List (KeepEntry V))
    (st st2 : CacheState V S) (h : st2.storage = st.storage)
    (hS : StorIs cfg keep st) : StorIs cfg keep st2 := by
  obtain ⟨a, b, c, d, e, f, g⟩ := hS
  exact ⟨a, b, c, d, by rw [h]; exact e, fun p hp => by rw [h]; exact f p hp,
    fun q h1 h2 => by rw [h]; exact g q h1 h2⟩

theorem clearOp_invariants (cfg : CacheCfg V S) (st : CacheState V S)
    (keep : List (KeepEntry V)) (hS : StorIs cfg keep st) :
    StorIs cfg [] (clearOp cfg st).1 ∧
    MemIs ([] : List (KeepEntry V)) (clearOp cfg st).1 ∧
    (clearOp cfg st).1.failWrites = st.failWrites ∧
    (clearOp cfg st).2 = false := by
  obtain ⟨hTN, hKN, hLen, hKI, hIdx, hRec, hNone⟩ := hS
  unfold readIndexE at hIdx
  cases hsv : st.storage cfg.indexKey with
  | none =>
    rw [hsv] at hIdx
    simp only [Except.ok.injEq] at hIdx
    simp only [clearOp, hsv]
    refine ⟨⟨?_, ?_, ?_, ?_, ?_, ?_, ?_⟩, ⟨?_, ?_⟩, ?_, ?_⟩
    · exact List.nodup_nil
    · exact List.nodup_nil
    · simp
    · simp
    · show readIndexE cfg (upd cfg.indexKey none st.storage) = .ok []
      unfold readIndexE
      rw [upd_self]
    · simp
    · intro q hqI _
      show upd cfg.indexKey none st.storage q = none
      rw [upd_other _ _ hqI]
      apply hNone q hqI
      intro p hp
      have : entryOf p ∈ keep.map entryOf := List.mem_map_of_mem _ hp
      rw [← hIdx] at this
      simp at this
    · simp
    · intro q _
      rfl
    · trivial
    · trivial
  | some sv =>
    cases sv with
    | val s =>
      rw [hsv] at hIdx
      simp at hIdx
    | index idx =>
      rw [hsv] at hIdx
      simp only [Except.ok.injEq] at hIdx
      subst hIdx
      simp only [clearOp, hsv]
      refine ⟨⟨?_, ?_, ?_, ?_, ?_, ?_, ?_⟩, ⟨?_, ?_⟩, ?_, ?_⟩
      · exact List.nodup_nil
      · exact List.nodup_nil
      · simp
      · simp
      · show readIndexE cfg (upd cfg.indexKey none _) = .ok []
        unfold readIndexE
        rw [upd_self]
      · simp
      · intro q hqI _
        show upd cfg.indexKey none
          ((keep.map entryOf).foldl (fun s2 e => upd e.key none s2) st.storage) q = none
        rw [upd_other _ _ hqI]
        by_cases hhit : ∃ e ∈ keep.map entryOf, e.key = q
        · exact foldl_upd_hit _ _ _ _ hhit
        · rw [foldl_upd_keep]
          · apply hNone q hqI
            intro p hp he
            exact hhit ⟨entryOf p, List.mem_map_of_mem _ hp, he.symm⟩
          · intro e he hq2
            exact hhit ⟨e, he, hq2⟩
      · simp
      · intro q _
        rfl
      · trivial
      · trivial
    | corrupt =>
      rw [hsv] at hIdx
      simp only [Except.ok.injEq] at hIdx
      simp only [clearOp, hsv]
      refine ⟨⟨?_, ?_, ?_, ?_, ?_, ?_, ?_⟩, ⟨?_, ?_⟩, ?_, ?_⟩
      · exact List.nodup_nil
      · exact List.nodup_nil
      · simp
      · simp
      · show readIndexE cfg (upd cfg.indexKey none st.storage) = .ok []
        unfold readIndexE
        rw [upd_self]
      · simp
      · intro q hqI _
        show upd cfg.indexKey none st.storage q = none
        rw [upd_other _ _ hqI]
        apply hNone q hqI
        intro p hp
        have : entryOf p ∈ keep.map entryOf := List.mem_map_of_mem _ hp
        rw [← hIdx] at this
        simp at this
      · simp
      · intro q _
        rfl
      · trivial
      · trivial

theorem getOp_hit (cfg : CacheCfg V S) (raw : String) (st : CacheState V S)
    (keep : List (KeepEntry V)) (p : KeepEntry V) (hM : MemIs keep st)
    (hp : p ∈ keep) (ht : cfg.normKey raw = p.t) :
    (getOp cfg raw st).1 = some p.v := by
  unfold getOp
  dsimp only
  rw [ht, hM.1 p hp]

theorem getOp_miss (cfg : CacheCfg V S) (raw : String) (st : CacheState V S)
    (keep : List (KeepEntry V)) (hS : StorIs cfg keep st) (hM : MemIs keep st)
    (hik : cfg.storeKey raw ≠ cfg.indexKey)
    (htm : ∀ p ∈ keep, cfg.normKey raw ≠ p.t)
    (hkm : ∀ p ∈ keep, cfg.storeKey raw ≠ p.k) :
    (getOp cfg raw st).1 = none := by
  unfold getOp
  dsimp only
  rw [hM.2 _ htm, hS.2.2.2.2.2.2 _ hik hkm]

theorem initState_invariants (cfg : CacheCfg V S) :
    StorIs cfg [] (initState : CacheState V S) ∧
    MemIs ([] : List (KeepEntry V)) (initState : CacheState V S) :=
  ⟨⟨List.nodup_nil, List.nodup_nil, by simp, by simp, rfl, by simp,
    fun _ _ _ => rfl⟩, ⟨by simp, fun _ _ => rfl⟩⟩

theorem runOps_invariant (cfg : CacheCfg V S) (L : List (COp V))
    (hcap : 0 < cfg.capacity) (hd : KeyDiscipline cfg L) :
    ∀ ops : List (COp V), (∀ op ∈ ops, op ∈ L) →
      ∀ st keep, st.failWrites = false → StorIs cfg keep st →
        KeepFrom cfg L keep →
        ∃ keep2, StorIs cfg keep2 (runOps cfg ops st) ∧
          KeepFrom cfg L keep2 ∧ (runOps cfg ops st).failWrites = false := by
  intro ops
  induction ops with
  | nil => exact fun _ st keep hfw hS hK => ⟨keep, hS, hK, hfw⟩
  | cons op rest ih =>
    intro hsub st keep hfw hS hK
    cases op with
    | put raw v ts =>
      have hput : COp.put raw v ts ∈ L := hsub _ (by simp)
      obtain ⟨hik, _⟩ := hd raw v ts hput
      have hinj : ∀ p ∈ keep, p.t ≠ cfg.normKey raw → p.k ≠ cfg.storeKey raw := by
        intro p hp hpt
        obtain ⟨raw2, v2, ts2, hm2, ht2, hk2⟩ := hK p hp
        rw [hk2]
        refine ((hd raw2 v2 ts2 hm2).2 raw v ts hput).1 ?_
        intro e
        exact hpt (by rw [ht2, e])
      have hre : ∀ p ∈ keep, p.t = cfg.normKey raw → p.k = cfg.storeKey raw := by
        intro p hp hpt
        obtain ⟨raw2, v2, ts2, hm2, ht2, hk2⟩ := hK p hp
        rw [hk2]
        exact ((hd raw2 v2 ts2 hm2).2 raw v ts hput).2 (by rw [← ht2, hpt])
      have hS' := putOp_storIs cfg raw v ts st keep hcap hfw hS hik hinj hre
      have hK' : KeepFrom cfg L (nextKeep cfg keep raw v ts) := by
        intro p hp
        simp only [nextKeep] at hp
        rcases List.mem_append.mp hp with hp | hp
        · exact hK p ((List.filter_sublist keep).subset (List.drop_subset _ _ hp))
        · simp only [List.mem_singleton] at hp
          exact ⟨raw, v, ts, hput, by rw [hp], by rw [hp]⟩
      have hfw' : (putOp cfg raw v ts st).failWrites = false :=
        (putOp_failWrites cfg raw v ts st).trans hfw
      exact ih (fun op h => hsub op (by simp [h])) _ _ hfw' hS' hK'
    | get raw =>
      have hsnd := getOp_snd cfg raw st
      have hS' := storIs_congr cfg keep _ _ hsnd.1 hS
      exact ih (fun op h => hsub op (by simp [h])) _ _ (hsnd.2.trans hfw) hS' hK
    | clear =>
      obtain ⟨hS', _, hfw', _⟩ := clearOp_invariants cfg st keep hS
      exact ih (fun op h => hsub op (by simp [h])) _ _ (hfw'.trans hfw) hS'
        (fun p hp => absurd hp (by simp))

/-- Claim C2 (amended): for every cache instance with positive capacity and
any sequence of put/get/clear operations starting from the empty store, in a
session where durable writes succeed and the puts obey the key discipline
(storage keys never equal the index key, and two puts collide on storage
keys exactly when they agree on logical keys — which hash collisions of
`getCacheKey` and the annotation word "index" can violate, see the
counterexample), the persisted index always parses, stays within capacity,
its entries refer to pairwise-distinct durable records, and each entry's
record exists in the durable store. -/
theorem C2_index_record_invariant (cfg : CacheCfg V S)
    (hcap : 0 < cfg.capacity) (ops : List (COp V))
    (hd : KeyDiscipline cfg ops) :
    ∃ idx, readIndexE cfg (runOps cfg ops initState).storage = .ok idx ∧
      idx.length ≤ cfg.capacity ∧
      (idx.map IndexEntry.key).Nodup ∧
      ∀ e ∈ idx, ∃ s, (runOps cfg ops initState).storage e.key =
        some (StoredVal.val s) := by
  obtain ⟨keep2, hS2, _, _⟩ := runOps_invariant cfg ops hcap hd ops
    (fun _ h => h) initState [] rfl (initState_invariants cfg).1
    (fun p hp => absurd hp (by simp))
  obtain ⟨hTN, hKN, hLen, hKI, hIdx, hRec, hNone⟩ := hS2
  refine ⟨keep2.map entryOf, hIdx, by simpa using hLen, ?_, ?_⟩
  · have hmm : (keep2.map entryOf).map IndexEntry.key = keep2.map KeepEntry.k := by
      rw [List.map_map]
      rfl
    rw [hmm]
    exact hKN
  · intro e he
    rcases List.mem_map.mp he with ⟨p, hp, hpe⟩
    exact ⟨cfg.ser p.v p.ts, by rw [← hpe]; exact hRec p hp⟩

/-- Counterexample to C2 as stated: the logical keys "Aa" and "BB" are
distinct but hash to the same storage key, so after just two puts the index
holds two entries referring to the same durable record — the 1:1 index/record
correspondence fails. -/
theorem C2_counterexample :
    jsTrim "Aa" ≠ jsTrim "BB" ∧
    readIndexE ttsCfg (runOps ttsCfg
      [COp.put "Aa" ⟨[1], "a"⟩ 0, COp.put "BB" ⟨[2], "b"⟩ 1]
      initState).storage =
      .ok [⟨getCacheKey "Aa", "Aa", 0⟩, ⟨getCacheKey "BB", "BB", 1⟩] ∧
    getCacheKey "Aa" = getCacheKey "BB" :=
  ⟨by decide, by rfl, by decide⟩

/-- Witness for C2 at the Gemini TTS cache with a concrete operation
sequence (put, get, put, re-put, clear, put). -/
theorem C2_index_record_invariant_witness :
    ∃ idx, readIndexE ttsCfg (runOps ttsCfg
      [COp.put "w1" ⟨[1], "a"⟩ 0, COp.get "w1", COp.put "w2" ⟨[2], "b"⟩ 1,
       COp.put "w1" ⟨[3], "c"⟩ 2, COp.clear, COp.put "w3" ⟨[4], "d"⟩ 3]
      initState).storage = .ok idx ∧
      idx.length ≤ ttsCfg.capacity ∧
      (idx.map IndexEntry.key).Nodup ∧
      ∀ e ∈ idx, ∃ s, (runOps ttsCfg
        [COp.put "w1" ⟨[1], "a"⟩ 0, COp.get "w1", COp.put "w2" ⟨[2], "b"⟩ 1,
         COp.put "w1" ⟨[3], "c"⟩ 2, COp.clear, COp.put "w3" ⟨[4], "d"⟩ 3]
        initState).storage e.key = some (StoredVal.val s) := by
  apply C2_index_record_invariant ttsCfg (by decide)
  intro raw v ts hmem
  simp only [List.mem_cons, List.not_mem_nil, or_false] at hmem
  rcases hmem with h | h | h | h | h | h <;>
    first
    | (obtain ⟨h1, h2, h3⟩ := COp.put.inj h
       subst h1
       refine ⟨by decide, ?_⟩
       intro raw2 v2 ts2 hm2
       simp only [List.mem_cons, List.not_mem_nil, or_false] at hm2
       rcases hm2 with g | g | g | g | g | g <;>
         first
         | (obtain ⟨g1, g2, g3⟩ := COp.put.inj g
            subst g1
            exact ⟨by decide, by decide⟩)
         | exact absurd g (by simp))
    | exact absurd h (by simp)

theorem runPuts_trace (cfg : CacheCfg V S) (hcap : 0 < cfg.capacity) :
    ∀ ks : List (String × V × Nat),
      (ks.map (fun p => cfg.normKey p.1)).Nodup →
      (ks.map (fun p => cfg.storeKey p.1)).Nodup →
      (∀ p ∈ ks, cfg.storeKey p.1 ≠ cfg.indexKey) →
      StorIs cfg ((keepOf cfg ks).drop (ks.length - cfg.capacity))
        (runPuts cfg ks initState) ∧
      MemIs ((keepOf cfg ks).drop (ks.length - cfg.capacity))
        (runPuts cfg ks initState) ∧
      (runPuts cfg ks initState).failWrites = false := by
  intro ks
  induction ks using List.reverseRecOn with
  | nil =>
    intro _ _ _
    simp only [keepOf, List.map_nil, List.length_nil, Nat.zero_sub, List.drop_nil]
    exact ⟨(initState_invariants cfg).1, (initState_invariants cfg).2, rfl⟩
  | append_singleton l x ih =>
    intro hN hK hI
    rw [List.map_append, List.nodup_append] at hN hK
    obtain ⟨hNl, _, hNd⟩ := hN
    obtain ⟨hKl, _, hKd⟩ := hK
    obtain ⟨hS, hM, hfw⟩ := ih hNl hKl (fun p hp => hI p (by simp [hp]))
    have hrun : runPuts cfg (l ++ [x]) initState =
        putOp cfg x.1 x.2.1 x.2.2 (runPuts cfg l initState) := by
      simp [runPuts, List.foldl_append]
    have hkmem : ∀ p ∈ (keepOf cfg l).drop (l.length - cfg.capacity),
        ∃ q ∈ l, p = ⟨cfg.normKey q.1, cfg.storeKey q.1, q.2.1, q.2.2⟩ := by
      intro p hp
      have hp2 := List.drop_subset _ _ hp
      rcases List.mem_map.mp hp2 with ⟨q, hq, hqe⟩
      exact ⟨q, hq, hqe.symm⟩
    have hnewt : ∀ p ∈ (keepOf cfg l).drop (l.length - cfg.capacity),
        p.t ≠ cfg.normKey x.1 := by
      intro p hp
      obtain ⟨q, hq, hqe⟩ := hkmem p hp
      rw [hqe]
      intro he
      dsimp only at he
      exact hNd (List.mem_map_of_mem _ hq) (by simp [he])
    have hnewk : ∀ p ∈ (keepOf cfg l).drop (l.length - cfg.capacity),
        p.k ≠ cfg.storeKey x.1 := by
      intro p hp
      obtain ⟨q, hq, hqe⟩ := hkmem p hp
      rw [hqe]
      intro he
      dsimp only at he
      exact hKd (List.mem_map_of_mem _ hq) (by simp [he])
    have hik := hI x (by simp)
    have hS' := putOp_storIs cfg x.1 x.2.1 x.2.2 _ _ hcap hfw hS hik
      (fun p hp _ => hnewk p hp) (fun p hp hpt => absurd hpt (hnewt p hp))
    have hM' := putOp_memIs cfg x.1 x.2.1 x.2.2 _ _ hfw hS hM
    have hkeepEq : nextKeep cfg ((keepOf cfg l).drop (l.length - cfg.capacity))
        x.1 x.2.1 x.2.2 =
        (keepOf cfg (l ++ [x])).drop ((l ++ [x]).length - cfg.capacity) := by
      have hfil : ((keepOf cfg l).drop (l.length - cfg.capacity)).filter
          (fun p => p.t ≠ cfg.normKey x.1) =
          (keepOf cfg l).drop (l.length - cfg.capacity) := by
        apply List.filter_eq_self.mpr
        intro p hp
        exact decide_eq_true (hnewt p hp)
      simp only [nextKeep, hfil]
      have hlen2 : ((keepOf cfg l).drop (l.length - cfg.capacity)).length =
          l.length - (l.length - cfg.capacity) := by
        simp [keepOf, List.length_drop]
      rw [hlen2, List.drop_drop]
      have hko : keepOf cfg (l ++ [x]) = keepOf cfg l ++
          [⟨cfg.normKey x.1, cfg.storeKey x.1, x.2.1, x.2.2⟩] := by
        simp [keepOf]
      have hle : (l ++ [x]).length - cfg.capacity ≤ (keepOf cfg l).length := by
        simp [keepOf]
        omega
      rw [hko, List.drop_append_of_le_length hle]
      congr 2
      simp only [List.length_append, List.length_singleton]
      omega
    rw [hrun, ← hkeepEq]
    exact ⟨hS', hM', (putOp_failWrites cfg x.1 x.2.1 x.2.2 _).trans hfw⟩

/-- Claim C1 (amended): capacity bound and FIFO eviction — for every cache
instance with positive capacity, after putting capacity+1 keys whose logical
keys are pairwise distinct AND whose derived storage keys are pairwise
distinct and distinct from the index key (hash collisions of `getCacheKey`
violate this, see the counterexample), a get on the first key is absent,
every later key is retrievable with its own value, and the persisted index
holds exactly the later keys in insertion order (so its length is within
capacity and eviction is strictly first-inserted-first-evicted). -/
theorem C1_capacity_fifo (cfg : CacheCfg V S) (hcap : 0 < cfg.capacity)
    (k0 : String × V × Nat) (rest : List (String × V × Nat))
    (hlen : (k0 :: rest).length = cfg.capacity + 1)
    (hN : ((k0 :: rest).map (fun p => cfg.normKey p.1)).Nodup)
    (hK : ((k0 :: rest).map (fun p => cfg.storeKey p.1)).Nodup)
    (hI : ∀ p ∈ k0 :: rest, cfg.storeKey p.1 ≠ cfg.indexKey) :
    (getOp cfg k0.1 (runPuts cfg (k0 :: rest) initState)).1 = none ∧
    (∀ p ∈ rest,
      (getOp cfg p.1 (runPuts cfg (k0 :: rest) initState)).1 = some p.2.1) ∧
    readIndexE cfg (runPuts cfg (k0 :: rest) initState).storage =
      .ok ((keepOf cfg rest).map entryOf) ∧
    ((keepOf cfg rest).map entryOf).length ≤ cfg.capacity := by
  obtain ⟨hS, hM, _⟩ := runPuts_trace cfg hcap (k0 :: rest) hN hK hI
  have hdrop : (keepOf cfg (k0 :: rest)).drop
      ((k0 :: rest).length - cfg.capacity) = keepOf cfg rest := by
    have h1 : (k0 :: rest).length - cfg.capacity = 1 := by
      rw [hlen]
      omega
    rw [h1]
    simp [keepOf]
  rw [hdrop] at hS hM
  rw [List.map_cons, List.nodup_cons] at hN hK
  refine ⟨?_, ?_, hS.2.2.2.2.1, ?_⟩
  · apply getOp_miss cfg k0.1 _ _ hS hM (hI k0 (by simp))
    · intro p hp
      rcases List.mem_map.mp hp with ⟨q, hq, hqe⟩
      rw [← hqe]
      intro he
      dsimp only at he
      exact hN.1 (he ▸ List.mem_map_of_mem _ hq)
    · intro p hp
      rcases List.mem_map.mp hp with ⟨q, hq, hqe⟩
      rw [← hqe]
      intro he
      dsimp only at he
      exact hK.1 (he ▸ List.mem_map_of_mem _ hq)
  · intro p hp
    exact getOp_hit cfg p.1 _ _
      ⟨cfg.normKey p.1, cfg.storeKey p.1, p.2.1, p.2.2⟩ hM
      (List.mem_map_of_mem _ hp) rfl
  · have hr : rest.length = cfg.capacity := by
      simp only [List.length_cons] at hlen
      omega
    simp [keepOf, hr]

/-- Witness for C1 at the Gemini TTS cache: 21 keys with pairwise-distinct
trimmed texts and hash keys; the first key's get is absent afterwards. -/
theorem C1_capacity_fifo_witness :
    (getOp ttsCfg "k01" (runPuts ttsCfg
      [("k01", ⟨[1], "m"⟩, 0), ("k02", ⟨[2], "m"⟩, 0), ("k03", ⟨[3], "m"⟩, 0),
       ("k04", ⟨[4], "m"⟩, 0), ("k05", ⟨[5], "m"⟩, 0), ("k06", ⟨[6], "m"⟩, 0),
       ("k07", ⟨[7], "m"⟩, 0), ("k08", ⟨[8], "m"⟩, 0), ("k09", ⟨[9], "m"⟩, 0),
       ("k10", ⟨[10], "m"⟩, 0), ("k11", ⟨[11], "m"⟩, 0), ("k12", ⟨[12], "m"⟩, 0),
       ("k13", ⟨[13], "m"⟩, 0), ("k14", ⟨[14], "m"⟩, 0), ("k15", ⟨[15], "m"⟩, 0),
       ("k16", ⟨[16], "m"⟩, 0), ("k17", ⟨[17], "m"⟩, 0), ("k18", ⟨[18], "m"⟩, 0),
       ("k19", ⟨[19], "m"⟩, 0), ("k20", ⟨[20], "m"⟩, 0), ("k21", ⟨[21], "m"⟩, 0)]
      initState)).1 = none :=
  (C1_capacity_fifo ttsCfg (by decide) ("k01", ⟨[1], "m"⟩, 0)
    [("k02", ⟨[2], "m"⟩, 0), ("k03", ⟨[3], "m"⟩, 0),
     ("k04", ⟨[4], "m"⟩, 0), ("k05", ⟨[5], "m"⟩, 0), ("k06", ⟨[6], "m"⟩, 0),
     ("k07", ⟨[7], "m"⟩, 0), ("k08", ⟨[8], "m"⟩, 0), ("k09", ⟨[9], "m"⟩, 0),
     ("k10", ⟨[10], "m"⟩, 0), ("k11", ⟨[11], "m"⟩, 0), ("k12", ⟨[12], "m"⟩, 0),
     ("k13", ⟨[13], "m"⟩, 0), ("k14", ⟨[14], "m"⟩, 0), ("k15", ⟨[15], "m"⟩, 0),
     ("k16", ⟨[16], "m"⟩, 0), ("k17", ⟨[17], "m"⟩, 0), ("k18", ⟨[18], "m"⟩, 0),
     ("k19", ⟨[19], "m"⟩, 0), ("k20", ⟨[20], "m"⟩, 0), ("k21", ⟨[21], "m"⟩, 0)]
    (by decide) (by decide) (by decide) (by decide)).1

/-- Counterexample to C1 as stated: 21 pairwise-distinct logical keys where
the first ("Aa") and the last ("BB") collide on the hashed storage key; after
the 21 puts, a get on the very first key is NOT absent — it returns the
audio stored for "BB". -/
theorem C1_counterexample :
    (["Aa", "k02", "k03", "k04", "k05", "k06", "k07", "k08", "k09", "k10",
      "k11", "k12", "k13", "k14", "k15", "k16", "k17", "k18", "k19", "k20",
      "BB"].map jsTrim).Nodup ∧
    (getOp ttsCfg "Aa" (runPuts ttsCfg
      [("Aa", ⟨[1], "m"⟩, 0), ("k02", ⟨[2], "m"⟩, 0), ("k03", ⟨[3], "m"⟩, 0),
       ("k04", ⟨[4], "m"⟩, 0), ("k05", ⟨[5], "m"⟩, 0), ("k06", ⟨[6], "m"⟩, 0),
       ("k07", ⟨[7], "m"⟩, 0), ("k08", ⟨[8], "m"⟩, 0), ("k09", ⟨[9], "m"⟩, 0),
       ("k10", ⟨[10], "m"⟩, 0), ("k11", ⟨[11], "m"⟩, 0), ("k12", ⟨[12], "m"⟩, 0),
       ("k13", ⟨[13], "m"⟩, 0), ("k14", ⟨[14], "m"⟩, 0), ("k15", ⟨[15], "m"⟩, 0),
       ("k16", ⟨[16], "m"⟩, 0), ("k17", ⟨[17], "m"⟩, 0), ("k18", ⟨[18], "m"⟩, 0),
       ("k19", ⟨[19], "m"⟩, 0), ("k20", ⟨[20], "m"⟩, 0), ("BB", ⟨[21], "m"⟩, 0)]
      initState)).1 = some ⟨[21], "m"⟩ :=
  ⟨by decide, by decide⟩

set_option maxHeartbeats 1600000 in
/-- Claim C4 (amended): re-insert resets recency — with the cache at
capacity holding k1, k2, ... (pairwise-distinct logical AND storage keys,
all distinct from the index key; hash collisions violate the claim as
stated, see the counterexample), re-putting k1 and then putting one fresh
key evicts k2 (its get becomes absent) and not k1 (which returns the
re-put value); all other keys and the fresh key stay retrievable, and the
persisted index ends as rest ++ [k1, fresh] — k1 was moved to the end of
the index before the eviction chose the now-oldest k2. -/
theorem C4_reinsert_resets_recency (cfg : CacheCfg V S) (hcap2 : 2 ≤ cfg.capacity)
    (k1 k2 : String × V × Nat) (rest : List (String × V × Nat))
    (v1 : V) (ts1 : Nat) (xn : String × V × Nat)
    (hlen : (k1 :: k2 :: rest).length = cfg.capacity)
    (hN : (((k1 :: k2 :: rest) ++ [xn]).map (fun p => cfg.normKey p.1)).Nodup)
    (hK : (((k1 :: k2 :: rest) ++ [xn]).map (fun p => cfg.storeKey p.1)).Nodup)
    (hI : ∀ p ∈ (k1 :: k2 :: rest) ++ [xn], cfg.storeKey p.1 ≠ cfg.indexKey) :
    (getOp cfg k2.1 (putOp cfg xn.1 xn.2.1 xn.2.2 (putOp cfg k1.1 v1 ts1
      (runPuts cfg (k1 :: k2 :: rest) initState)))).1 = none ∧
    (getOp cfg k1.1 (putOp cfg xn.1 xn.2.1 xn.2.2 (putOp cfg k1.1 v1 ts1
      (runPuts cfg (k1 :: k2 :: rest) initState)))).1 = some v1 ∧
    (∀ p ∈ rest, (getOp cfg p.1 (putOp cfg xn.1 xn.2.1 xn.2.2
      (putOp cfg k1.1 v1 ts1
        (runPuts cfg (k1 :: k2 :: rest) initState)))).1 = some p.2.1) ∧
    (getOp cfg xn.1 (putOp cfg xn.1 xn.2.1 xn.2.2 (putOp cfg k1.1 v1 ts1
      (runPuts cfg (k1 :: k2 :: rest) initState)))).1 = some xn.2.1 ∧
    readIndexE cfg (putOp cfg xn.1 xn.2.1 xn.2.2 (putOp cfg k1.1 v1 ts1
      (runPuts cfg (k1 :: k2 :: rest) initState))).storage =
      .ok ((keepOf cfg rest).map entryOf ++
        [⟨cfg.storeKey k1.1, cfg.normKey k1.1, ts1⟩,
         ⟨cfg.storeKey xn.1, cfg.normKey xn.1, xn.2.2⟩]) := by
  have hcap : 0 < cfg.capacity := by omega
  rw [List.map_append, List.nodup_append] at hN hK
  obtain ⟨hNks, _, hNd⟩ := hN
  obtain ⟨hKks, _, hKd⟩ := hK
  have hIks : ∀ p ∈ k1 :: k2 :: rest, cfg.storeKey p.1 ≠ cfg.indexKey :=
    fun p hp => hI p (List.mem_append_left _ hp)
  obtain ⟨hS1, hM1, hfw1⟩ := runPuts_trace cfg hcap (k1 :: k2 :: rest) hNks hKks hIks
  have hdrop0 : (keepOf cfg (k1 :: k2 :: rest)).drop
      ((k1 :: k2 :: rest).length - cfg.capacity) = keepOf cfg (k1 :: k2 :: rest) := by
    rw [hlen, Nat.sub_self, List.drop_zero]
  rw [hdrop0] at hS1 hM1
  -- facts about the norms/keys of k1, k2, rest, xn
  have hNk1 : cfg.normKey k1.1 ∉
      ((k2 :: rest).map (fun p => cfg.normKey p.1)) := by
    rw [List.map_cons, List.nodup_cons] at hNks
    exact hNks.1
  have hKk1 : cfg.storeKey k1.1 ∉
      ((k2 :: rest).map (fun p => cfg.storeKey p.1)) := by
    rw [List.map_cons, List.nodup_cons] at hKks
    exact hKks.1
  have hNxn : ∀ p ∈ k1 :: k2 :: rest, cfg.normKey p.1 ≠ cfg.normKey xn.1 := by
    intro p hp he
    exact hNd (List.mem_map_of_mem _ hp) (by simp [he])
  have hKxn : ∀ p ∈ k1 :: k2 :: rest, cfg.storeKey p.1 ≠ cfg.storeKey xn.1 := by
    intro p hp he
    exact hKd (List.mem_map_of_mem _ hp) (by simp [he])
  -- step A: re-put of k1
  have hmemKs : ∀ p ∈ keepOf cfg (k1 :: k2 :: rest),
      ∃ q ∈ k1 :: k2 :: rest,
        p = ⟨cfg.normKey q.1, cfg.storeKey q.1, q.2.1, q.2.2⟩ := by
    intro p hp
    rcases List.mem_map.mp hp with ⟨q, hq, hqe⟩
    exact ⟨q, hq, hqe.symm⟩
  have hinjA : ∀ p ∈ keepOf cfg (k1 :: k2 :: rest),
      p.t ≠ cfg.normKey k1.1 → p.k ≠ cfg.storeKey k1.1 := by
    intro p hp hpt
    obtain ⟨q, hq, hqe⟩ := hmemKs p hp
    subst hqe
    rcases List.mem_cons.mp hq with hq1 | hq1
    · exact absurd (by rw [hq1]) hpt
    · intro he
      dsimp only at he
      exact hKk1 (he ▸ List.mem_map_of_mem _ hq1)
  have hreA : ∀ p ∈ keepOf cfg (k1 :: k2 :: rest),
      p.t = cfg.normKey k1.1 → p.k = cfg.storeKey k1.1 := by
    intro p hp hpt
    obtain ⟨q, hq, hqe⟩ := hmemKs p hp
    subst hqe
    rcases List.mem_cons.mp hq with hq1 | hq1
    · rw [hq1]
    · dsimp only at hpt
      exact absurd (hpt ▸ List.mem_map_of_mem (fun p => cfg.normKey p.1) hq1) hNk1
  have hSA := putOp_storIs cfg k1.1 v1 ts1 _ _ hcap hfw1 hS1
    (hIks k1 (by simp)) hinjA hreA
  have hMA := putOp_memIs cfg k1.1 v1 ts1 _ _ hfw1 hS1 hM1
  have htail : ∀ p ∈ keepOf cfg (k2 :: rest), p.t ≠ cfg.normKey k1.1 := by
    intro p hp
    rcases List.mem_map.mp hp with ⟨q, hq, hqe⟩
    rw [← hqe]
    intro he
    dsimp only at he
    exact hNk1 (he ▸ List.mem_map_of_mem _ hq)
  have hfilA : (keepOf cfg (k1 :: k2 :: rest)).filter
      (fun p => p.t ≠ cfg.normKey k1.1) = keepOf cfg (k2 :: rest) := by
    show (List.filter _ (⟨cfg.normKey k1.1, cfg.storeKey k1.1, k1.2.1, k1.2.2⟩ ::
      keepOf cfg (k2 :: rest))) = _
    rw [List.filter_cons]
    rw [if_neg (by simp)]
    exact List.filter_eq_self.mpr (fun p hp => decide_eq_true (htail p hp))
  have hkeepEqA : nextKeep cfg (keepOf cfg (k1 :: k2 :: rest)) k1.1 v1 ts1 =
      keepOf cfg (k2 :: rest) ++
        [⟨cfg.normKey k1.1, cfg.storeKey k1.1, v1, ts1⟩] := by
    simp only [nextKeep, hfilA]
    have hz : (keepOf cfg (k2 :: rest)).length + 1 - cfg.capacity = 0 := by
      have : (keepOf cfg (k2 :: rest)).length = rest.length + 1 := by
        simp [keepOf]
      simp only [List.length_cons] at hlen
      omega
    rw [hz, List.drop_zero]
  rw [hkeepEqA] at hSA hMA
  have hfwA : (putOp cfg k1.1 v1 ts1
      (runPuts cfg (k1 :: k2 :: rest) initState)).failWrites = false :=
    (putOp_failWrites cfg k1.1 v1 ts1 _).trans hfw1
  -- step B: put of the fresh key xn
  have hmemB : ∀ p ∈ keepOf cfg (k2 :: rest) ++
      [⟨cfg.normKey k1.1, cfg.storeKey k1.1, v1, ts1⟩],
      ∃ q ∈ k1 :: k2 :: rest, p.t = cfg.normKey q.1 ∧ p.k = cfg.storeKey q.1 := by
    intro p hp
    rcases List.mem_append.mp hp with hp | hp
    · rcases List.mem_map.mp hp with ⟨q, hq, hqe⟩
      subst hqe
      exact ⟨q, List.mem_cons_of_mem _ hq, rfl, rfl⟩
    · simp only [List.mem_singleton] at hp
      subst hp
      exact ⟨k1, by simp, rfl, rfl⟩
  have hinjB : ∀ p ∈ keepOf cfg (k2 :: rest) ++
      [⟨cfg.normKey k1.1, cfg.storeKey k1.1, v1, ts1⟩],
      p.t ≠ cfg.normKey xn.1 → p.k ≠ cfg.storeKey xn.1 := by
    intro p hp _
    obtain ⟨q, hq, _, hk⟩ := hmemB p hp
    rw [hk]
    exact hKxn q hq
  have hreB : ∀ p ∈ keepOf cfg (k2 :: rest) ++
      [⟨cfg.normKey k1.1, cfg.storeKey k1.1, v1, ts1⟩],
      p.t = cfg.normKey xn.1 → p.k = cfg.storeKey xn.1 := by
    intro p hp hpt
    obtain ⟨q, hq, ht, _⟩ := hmemB p hp
    exact absurd (by rw [← ht, hpt]) (hNxn q hq)
  have hSB := putOp_storIs cfg xn.1 xn.2.1 xn.2.2 _ _ hcap hfwA hSA
    (hI xn (by simp)) hinjB hreB
  have hMB := putOp_memIs cfg xn.1 xn.2.1 xn.2.2 _ _ hfwA hSA hMA
  have hfilB : (keepOf cfg (k2 :: rest) ++
      ([⟨cfg.normKey k1.1, cfg.storeKey k1.1, v1, ts1⟩] : List (KeepEntry V))).filter
      (fun p => p.t ≠ cfg.normKey xn.1) =
      keepOf cfg (k2 :: rest) ++
        [⟨cfg.normKey k1.1, cfg.storeKey k1.1, v1, ts1⟩] := by
    apply List.filter_eq_self.mpr
    intro p hp
    apply decide_eq_true
    obtain ⟨q, hq, ht, _⟩ := hmemB p hp
    rw [ht]
    exact hNxn q hq
  have hkeepEqB : nextKeep cfg (keepOf cfg (k2 :: rest) ++
      [⟨cfg.normKey k1.1, cfg.storeKey k1.1, v1, ts1⟩]) xn.1 xn.2.1 xn.2.2 =
      (keepOf cfg rest ++
        [⟨cfg.normKey k1.1, cfg.storeKey k1.1, v1, ts1⟩]) ++
        [⟨cfg.normKey xn.1, cfg.storeKey xn.1, xn.2.1, xn.2.2⟩] := by
    simp only [nextKeep, hfilB]
    have hone : (keepOf cfg (k2 :: rest) ++
        ([⟨cfg.normKey k1.1, cfg.storeKey k1.1, v1, ts1⟩] : List (KeepEntry V))).length + 1 -
        cfg.capacity = 1 := by
      have : (keepOf cfg (k2 :: rest)).length = rest.length + 1 := by
        simp [keepOf]
      simp only [List.length_append, List.length_singleton, this]
      simp only [List.length_cons] at hlen
      omega
    rw [hone]
    show List.drop 1 ((⟨cfg.normKey k2.1, cfg.storeKey k2.1, k2.2.1, k2.2.2⟩ :
      KeepEntry V) :: (keepOf cfg rest ++
        [⟨cfg.normKey k1.1, cfg.storeKey k1.1, v1, ts1⟩])) ++
      [⟨cfg.normKey xn.1, cfg.storeKey xn.1, xn.2.1, xn.2.2⟩] = _
    rw [List.drop_one, List.tail_cons]
  rw [hkeepEqB] at hSB hMB
  -- conclusions
  have hmem3 : ∀ p ∈ (keepOf cfg rest ++
      [⟨cfg.normKey k1.1, cfg.storeKey k1.1, v1, ts1⟩]) ++
      [⟨cfg.normKey xn.1, cfg.storeKey xn.1, xn.2.1, xn.2.2⟩],
      (∃ q ∈ rest, p = ⟨cfg.normKey q.1, cfg.storeKey q.1, q.2.1, q.2.2⟩) ∨
      p = ⟨cfg.normKey k1.1, cfg.storeKey k1.1, v1, ts1⟩ ∨
      p = ⟨cfg.normKey xn.1, cfg.storeKey xn.1, xn.2.1, xn.2.2⟩ := by
    intro p hp
    rcases List.mem_append.mp hp with hp | hp
    · rcases List.mem_append.mp hp with hp | hp
      · rcases List.mem_map.mp hp with ⟨q, hq, hqe⟩
        exact Or.inl ⟨q, hq, hqe.symm⟩
      · simp only [List.mem_singleton] at hp
        exact Or.inr (Or.inl hp)
    · simp only [List.mem_singleton] at hp
      exact Or.inr (Or.inr hp)
  have hNk2 : cfg.normKey k2.1 ≠ cfg.normKey k1.1 ∧
      cfg.normKey k2.1 ∉ (rest.map (fun p => cfg.normKey p.1)) := by
    rw [List.map_cons, List.nodup_cons, List.map_cons, List.nodup_cons] at hNks
    exact ⟨fun he => hNks.1 (by simp [he.symm]), hNks.2.1⟩
  have hKk2 : cfg.storeKey k2.1 ≠ cfg.storeKey k1.1 ∧
      cfg.storeKey k2.1 ∉ (rest.map (fun p => cfg.storeKey p.1)) := by
    rw [List.map_cons, List.nodup_cons, List.map_cons, List.nodup_cons] at hKks
    exact ⟨fun he => hKks.1 (by simp [he.symm]), hKks.2.1⟩
  refine ⟨?_, ?_, ?_, ?_, ?_⟩
  · -- get k2 is absent: k2 was evicted
    apply getOp_miss cfg k2.1 _ _ hSB hMB (hIks k2 (by simp))
    · intro p hp
      rcases hmem3 p hp with ⟨q, hq, hqe⟩ | hqe | hqe
      · subst hqe
        intro he
        dsimp only at he
        exact hNk2.2 (he ▸ List.mem_map_of_mem _ hq)
      · subst hqe
        exact hNk2.1
      · subst hqe
        exact hNxn k2 (by simp)
    · intro p hp
      rcases hmem3 p hp with ⟨q, hq, hqe⟩ | hqe | hqe
      · subst hqe
        intro he
        dsimp only at he
        exact hKk2.2 (he ▸ List.mem_map_of_mem _ hq)
      · subst hqe
        exact hKk2.1
      · subst hqe
        exact hKxn k2 (by simp)
  · -- get k1 returns the re-put value
    exact getOp_hit cfg k1.1 _ _
      ⟨cfg.normKey k1.1, cfg.storeKey k1.1, v1, ts1⟩ hMB
      (by simp) rfl
  · -- every remaining key is retrievable
    intro p hp
    exact getOp_hit cfg p.1 _ _
      ⟨cfg.normKey p.1, cfg.storeKey p.1, p.2.1, p.2.2⟩ hMB
      (List.mem_append_left _ (List.mem_append_left _
        (List.mem_map_of_mem _ hp))) rfl
  · -- the fresh key is retrievable
    exact getOp_hit cfg xn.1 _ _
      ⟨cfg.normKey xn.1, cfg.storeKey xn.1, xn.2.1, xn.2.2⟩ hMB
      (by simp) rfl
  · -- the final index: rest, then k1 (re-put), then the fresh key
    have := hSB.2.2.2.2.1
    rw [this]
    simp [entryOf, List.map_append]

/-- Witness for C4 at the Gemini TTS cache: 20 keys fill the cache, k01 is
re-put, one fresh key is put; the get on k02 is then absent. -/
theorem C4_reinsert_resets_recency_witness :
    (getOp ttsCfg "k02" (putOp ttsCfg "k21" ⟨[21], "m"⟩ 9
      (putOp ttsCfg "k01" ⟨[99], "m"⟩ 8 (runPuts ttsCfg
        [("k01", ⟨[1], "m"⟩, 0), ("k02", ⟨[2], "m"⟩, 0), ("k03", ⟨[3], "m"⟩, 0),
         ("k04", ⟨[4], "m"⟩, 0), ("k05", ⟨[5], "m"⟩, 0), ("k06", ⟨[6], "m"⟩, 0),
         ("k07", ⟨[7], "m"⟩, 0), ("k08", ⟨[8], "m"⟩, 0), ("k09", ⟨[9], "m"⟩, 0),
         ("k10", ⟨[10], "m"⟩, 0), ("k11", ⟨[11], "m"⟩, 0), ("k12", ⟨[12], "m"⟩, 0),
         ("k13", ⟨[13], "m"⟩, 0), ("k14", ⟨[14], "m"⟩, 0), ("k15", ⟨[15], "m"⟩, 0),
         ("k16", ⟨[16], "m"⟩, 0), ("k17", ⟨[17], "m"⟩, 0), ("k18", ⟨[18], "m"⟩, 0),
         ("k19", ⟨[19], "m"⟩, 0), ("k20", ⟨[20], "m"⟩, 0)]
        initState)))).1 = none :=
  (C4_reinsert_resets_recency ttsCfg (by decide)
    ("k01", ⟨[1], "m"⟩, 0) ("k02", ⟨[2], "m"⟩, 0)
    [("k03", ⟨[3], "m"⟩, 0),
     ("k04", ⟨[4], "m"⟩, 0), ("k05", ⟨[5], "m"⟩, 0), ("k06", ⟨[6], "m"⟩, 0),
     ("k07", ⟨[7], "m"⟩, 0), ("k08", ⟨[8], "m"⟩, 0), ("k09", ⟨[9], "m"⟩, 0),
     ("k10", ⟨[10], "m"⟩, 0), ("k11", ⟨[11], "m"⟩, 0), ("k12", ⟨[12], "m"⟩, 0),
     ("k13", ⟨[13], "m"⟩, 0), ("k14", ⟨[14], "m"⟩, 0), ("k15", ⟨[15], "m"⟩, 0),
     ("k16", ⟨[16], "m"⟩, 0), ("k17", ⟨[17], "m"⟩, 0), ("k18", ⟨[18], "m"⟩, 0),
     ("k19", ⟨[19], "m"⟩, 0), ("k20", ⟨[20], "m"⟩, 0)]
    ⟨[99], "m"⟩ 8 ("k21", ⟨[21], "m"⟩, 9)
    (by decide) (by decide) (by decide) (by decide)).1

/-- Counterexample to C4 as stated: with k2 = "Aa" and the one new key "BB"
(whose storage keys collide), after the re-put of k01 and the put of "BB",
a get on k2 is NOT absent — it returns the new key's audio — so "evicts k2"
fails in the observable (get) sense. -/
theorem C4_counterexample :
    (["k01", "Aa", "k03", "k04", "k05", "k06", "k07", "k08", "k09", "k10",
      "k11", "k12", "k13", "k14", "k15", "k16", "k17", "k18", "k19", "k20",
      "BB"].map jsTrim).Nodup ∧
    (getOp ttsCfg "Aa" (putOp ttsCfg "BB" ⟨[8], "new"⟩ 22
      (putOp ttsCfg "k01" ⟨[9], "re"⟩ 21 (runPuts ttsCfg
        [("k01", ⟨[1], "m"⟩, 0), ("Aa", ⟨[2], "m"⟩, 0), ("k03", ⟨[3], "m"⟩, 0),
         ("k04", ⟨[4], "m"⟩, 0), ("k05", ⟨[5], "m"⟩, 0), ("k06", ⟨[6], "m"⟩, 0),
         ("k07", ⟨[7], "m"⟩, 0), ("k08", ⟨[8], "m"⟩, 0), ("k09", ⟨[9], "m"⟩, 0),
         ("k10", ⟨[10], "m"⟩, 0), ("k11", ⟨[11], "m"⟩, 0), ("k12", ⟨[12], "m"⟩, 0),
         ("k13", ⟨[13], "m"⟩, 0), ("k14", ⟨[14], "m"⟩, 0), ("k15", ⟨[15], "m"⟩, 0),
         ("k16", ⟨[16], "m"⟩, 0), ("k17", ⟨[17], "m"⟩, 0), ("k18", ⟨[18], "m"⟩, 0),
         ("k19", ⟨[19], "m"⟩, 0), ("k20", ⟨[20], "m"⟩, 0)]
        initState)))).1 = some ⟨[8], "new"⟩ :=
  ⟨by decide, by decide⟩
